import Mathlib

/-!
Verification of the karakeep-telegram-bot ingestion pipeline.

This file shallowly embeds the Go sources of the repository
(`internal/classifier`, `internal/app`, `internal/telegram`, and the
`karakeep` client types) as executable Lean definitions and proves the
specification claims about them.  Go strings are modelled as Lean
`String`s (sequences of Unicode codepoints); where Go semantics is
byte-oriented (`len`, slicing) an explicit UTF-8 byte length function is
used.  Machine integers are modelled as `Int`.
-/

namespace KBot

/-- Go `unicode.IsSpace`: the Unicode White_Space property. -/
def goIsSpace (c : Char) : Bool :=
  c = ' ' || c = '\t' || c = '\n' || c = '\r' ||
  c.toNat = 0x0b || c.toNat = 0x0c || c.toNat = 0x85 || c.toNat = 0xa0 ||
  c.toNat = 0x1680 || (0x2000 ≤ c.toNat && c.toNat ≤ 0x200a) ||
  c.toNat = 0x2028 || c.toNat = 0x2029 || c.toNat = 0x202f ||
  c.toNat = 0x205f || c.toNat = 0x3000

/-- Go `strings.TrimSpace`, on the codepoint level. -/
def trimSpace (s : String) : String :=
  String.mk (((s.data.dropWhile goIsSpace).reverse.dropWhile goIsSpace).reverse)

/-- Number of UTF-16 code units of one codepoint (Go `utf16.Encode` of a
single valid rune). -/
def utf16Len (c : Char) : Nat :=
  if c.toNat ≥ 0x10000 then 2 else 1

/-- UTF-8 byte length of a codepoint list; `len(s)` in Go. -/
def byteLenL (l : List Char) : Nat :=
  (l.map Char.utf8Size).sum

/-- `len(s)` in Go (bytes of the UTF-8 encoding). -/
def goLen (s : String) : Nat :=
  byteLenL s.data

/-- The loop of `SliceByUTF16` (`internal/classifier/utf16slice.go`):
iterates over the runes with the current code-unit count `curCU`, the
rune index `ri`, and the tentative start/end rune indices (`n` is the
sentinel `len(runes)`).  Returns the final `(curCU, startRI, endRI)`. -/
def sliceLoop (n startCU endCU : Nat) :
    List Char → Nat → Nat → Nat → Nat → Nat × Nat × Nat
  | [], _, curCU, startRI, endRI => (curCU, startRI, endRI)
  | r :: rest, ri, curCU, startRI, endRI =>
    let startRI' := if curCU ≥ startCU ∧ startRI = n then ri else startRI
    if curCU ≥ endCU then (curCU, startRI', ri)
    else sliceLoop n startCU endCU rest (ri + 1) (curCU + utf16Len r) startRI' endRI

/-- `SliceByUTF16` (`internal/classifier/utf16slice.go`): substring of
`s` by UTF-16 code unit offset/length, with out-of-range clamping. -/
def sliceByUTF16 (s : String) (off length : Int) : String :=
  let off := if off < 0 then 0 else off
  let length := if length < 0 then 0 else length
  let runes := s.data
  let n := runes.length
  let startCU := off.toNat
  let endCU := (off + length).toNat
  let res := sliceLoop n startCU endCU runes 0 0 n n
  let curCU := res.1
  let startRI := if startCU ≥ curCU then n else res.2.1
  let endRI := if endCU ≥ curCU then n else res.2.2
  let startRI := if startRI > endRI then endRI else startRI
  String.mk ((runes.drop startRI).take (endRI - startRI))

/-- A Telegram message entity (`tgbotapi.MessageEntity`): type,
UTF-16 offset/length, and the URL of a `text_link`. -/
structure MessageEntity where
  type : String
  offset : Int
  length : Int
  url : String
deriving DecidableEq

/-- One photo size variant (`tgbotapi.PhotoSize`). -/
structure PhotoSize where
  fileID : String
  fileSize : Int
deriving DecidableEq

/-- `tgbotapi.Document`. -/
structure Document where
  fileID : String
  fileName : String
  mimeType : String
  fileSize : Int
deriving DecidableEq

/-- `tgbotapi.Video`. -/
structure Video where
  fileID : String
  mimeType : String
  fileSize : Int
deriving DecidableEq

/-- `tgbotapi.Audio`. -/
structure Audio where
  fileID : String
  fileName : String
  mimeType : String
  fileSize : Int
deriving DecidableEq

/-- `tgbotapi.Voice`. -/
structure Voice where
  fileID : String
  mimeType : String
  fileSize : Int
deriving DecidableEq

/-- `tgbotapi.Animation`. -/
structure Animation where
  fileID : String
  fileName : String
  mimeType : String
  fileSize : Int
deriving DecidableEq

/-- `tgbotapi.VideoNote`. -/
structure VideoNote where
  fileID : String
  fileSize : Int
deriving DecidableEq

/-- `tgbotapi.Sticker`. -/
structure Sticker where
  fileID : String
  isAnimated : Bool
  fileSize : Int
deriving DecidableEq

/-- The fields of `tgbotapi.Message` used by the pipeline.  A Go
`*Message` is modelled as `Option Message` (`none` = nil pointer). -/
structure Message where
  text : String
  caption : String
  entities : List MessageEntity
  captionEntities : List MessageEntity
  photo : List PhotoSize
  document : Option Document
  video : Option Video
  animation : Option Animation
  audio : Option Audio
  voice : Option Voice
  videoNote : Option VideoNote
  sticker : Option Sticker
  mediaGroupID : String
  date : Int
deriving DecidableEq

/-- The characters of the regex class `[)\].,!?:;]` in
`internal/classifier/extract_urls.go`. -/
def isTrailingPunct (c : Char) : Bool :=
  c = ')' || c = ']' || c = '.' || c = ',' || c = '!' || c = '?' || c = ':' || c = ';'

/-- `trailingPunctRE.ReplaceAllString(u, "")`: removes the longest run of
trailing punctuation characters. -/
def stripTrailingPunct (s : String) : String :=
  String.mk ((s.data.reverse.dropWhile isTrailingPunct).reverse)

/-- The body of the `add` closure of `ExtractURLs`
(`internal/classifier/extract_urls.go`): state is `(seen, out)`. -/
def addURL (su : List String × List String) (u : String) : List String × List String :=
  let u := trimSpace u
  let u := stripTrailingPunct u
  let u := trimSpace u
  if u = "" then su
  else if u ∈ su.1 then su
  else (u :: su.1, su.2 ++ [u])

/-- `ExtractURLs` (`internal/classifier/extract_urls.go`). -/
def extractURLs (text : String) (entities : List MessageEntity) : List String :=
  (entities.foldl
    (fun su e =>
      if e.type = "text_link" then addURL su e.url
      else if e.type = "url" then addURL su (sliceByUTF16 text e.offset e.length)
      else su)
    ([], [])).2

/-- `ExtractURLsFromMessage` (`internal/classifier/extract_urls.go`). -/
def extractURLsFromMessage : Option Message → List String
  | none => []
  | some msg =>
    if msg.text ≠ "" then extractURLs msg.text msg.entities
    else if msg.caption ≠ "" then extractURLs msg.caption msg.captionEntities
    else []

/-- `Kind` (`internal/classifier/classify.go`): a string type in Go. -/
def KindBookmark : String := "bookmark"

/-- The `note` kind constant. -/
def KindNote : String := "note"

/-- The `file` kind constant. -/
def KindFile : String := "file"

/-- `classifier.Result` (`internal/classifier/classify.go`). -/
structure Result where
  kind : String
  url : String
  notes : String
  text : String
  urls : List String
  hasMedia : Bool
deriving DecidableEq

/-- `firstNonEmpty` (`internal/classifier/classify.go`). -/
def firstNonEmpty (a b : String) : String :=
  if trimSpace a ≠ "" then a else b

/-- `messageHasMedia` (`internal/classifier/classify.go`). -/
def messageHasMedia : Option Message → Bool
  | none => false
  | some msg =>
    if msg.photo.length > 0 then true
    else if msg.document.isSome || msg.video.isSome || msg.animation.isSome ||
        msg.audio.isSome || msg.voice.isSome || msg.videoNote.isSome then true
    else if msg.sticker.isSome then true
    else false

/-- `ClassifyMessage` (`internal/classifier/classify.go`). -/
def classifyMessage : Option Message → Result
  | none => ⟨KindNote, "", "", "", [], false⟩
  | some msg =>
    let text := trimSpace (firstNonEmpty msg.text msg.caption)
    let urls := extractURLsFromMessage (some msg)
    let hasMedia := messageHasMedia (some msg)
    if hasMedia ∧ text = "" ∧ urls.length = 0 then
      ⟨KindFile, "", "", "", [], true⟩
    else if hasMedia then
      ⟨KindNote, "", "", text, urls, true⟩
    else
      match urls with
      | [] => ⟨KindNote, "", "", text, urls, false⟩
      | [u] =>
        let onlyURL := trimSpace u
        if text = onlyURL then ⟨KindBookmark, onlyURL, "", "", [], false⟩
        else ⟨KindBookmark, onlyURL, text, "", urls, false⟩
      | _ => ⟨KindNote, "", "", text, urls, false⟩

/-- `app.Attachment` (`internal/app/app.go`). -/
structure Attachment where
  fileID : String
  filename : String
  mime : String
  sizeBytes : Int
deriving DecidableEq

/-- Go `filepath.Base` for `/`-separated paths. -/
def filepathBase (name : String) : String :=
  if name = "" then "."
  else
    let l := (name.data.reverse.dropWhile (· = '/')).reverse
    if l = [] then "/"
    else String.mk ((l.reverse.takeWhile (· ≠ '/')).reverse)

/-- `safeFilename` (`internal/app/app.go`). -/
def safeFilename (name : String) : String :=
  let name := trimSpace name
  if name = "" then "upload.bin" else filepathBase name

/-- The body of the `add` closure of `ExtractAttachments`
(`internal/app/app.go`): state is `(seen, out)`. -/
def addAtt (sa : List String × List Attachment) (a : Attachment) :
    List String × List Attachment :=
  if trimSpace a.fileID = "" then sa
  else if a.fileID ∈ sa.1 then sa
  else
    let a := if trimSpace a.filename = "" then { a with filename := "upload.bin" } else a
    (a.fileID :: sa.1, sa.2 ++ [a])

/-- The attachment candidates one message contributes, in the kind-check
order of the loop body of `ExtractAttachments` (photo, document, video,
audio, voice, animation, video note, sticker). -/
def msgCandidates (msg : Message) : List Attachment :=
  (match msg.photo.getLast? with
   | some p => [⟨p.fileID, "photo.jpg", "image/jpeg", p.fileSize⟩]
   | none => []) ++
  (match msg.document with
   | some d =>
     let fn := if trimSpace d.fileName = "" then "document" else d.fileName
     [⟨d.fileID, safeFilename fn, d.mimeType, d.fileSize⟩]
   | none => []) ++
  (match msg.video with
   | some v => [⟨v.fileID, "video.mp4", v.mimeType, v.fileSize⟩]
   | none => []) ++
  (match msg.audio with
   | some a =>
     let fn := if trimSpace a.fileName = "" then "audio.mp3" else a.fileName
     [⟨a.fileID, safeFilename fn, a.mimeType, a.fileSize⟩]
   | none => []) ++
  (match msg.voice with
   | some v => [⟨v.fileID, "voice.ogg", v.mimeType, v.fileSize⟩]
   | none => []) ++
  (match msg.animation with
   | some an =>
     let fn := if trimSpace an.fileName = "" then "animation.mp4" else an.fileName
     [⟨an.fileID, safeFilename fn, an.mimeType, an.fileSize⟩]
   | none => []) ++
  (match msg.videoNote with
   | some vn => [⟨vn.fileID, "video_note.mp4", "video/mp4", vn.fileSize⟩]
   | none => []) ++
  (match msg.sticker with
   | some st =>
     let ext := if st.isAnimated then "tgs" else "webp"
     [⟨st.fileID, "sticker." ++ ext, "", st.fileSize⟩]
   | none => [])

/-- `ExtractAttachments` (`internal/app/app.go`): folds the per-message
candidates through the deduplicating `add` closure; nil messages are
skipped. -/
def extractAttachments (msgs : List (Option Message)) : List Attachment :=
  (msgs.foldl
    (fun sa om =>
      match om with
      | none => sa
      | some msg => (msgCandidates msg).foldl addAtt sa)
    ([], [])).2

mutual

/-- A decoded JSON value as produced by Go `json.Unmarshal` into
`map[string]any`: objects, arrays, strings, and any other leaf
(number/bool/null), which the scanned code treats uniformly. -/
inductive JValue where
  | str : String → JValue
  | prim : JValue
  | obj : JFields → JValue
  | arr : JElems → JValue

/-- The fields of a decoded JSON object (keys are distinct). -/
inductive JFields where
  | nil : JFields
  | cons : String → JValue → JFields → JFields

/-- The elements of a decoded JSON array. -/
inductive JElems where
  | nil : JElems
  | cons : JValue → JElems → JElems

end

/-- Go `strings.ToLower` restricted to ASCII letters (the keys compared
against are all ASCII, so this agrees with Go on every comparison the
code performs). -/
def asciiLower (s : String) : String :=
  String.mk (s.data.map fun c =>
    if 'A' ≤ c ∧ c ≤ 'Z' then Char.ofNat (c.toNat + 32) else c)

/-- Whether `pat` occurs at the start of `l`. -/
def startsWithL : List Char → List Char → Bool
  | _, [] => true
  | [], _ :: _ => false
  | c :: cs, p :: ps => c = p && startsWithL cs ps

/-- Go `strings.Contains` on codepoint lists. -/
def containsL : List Char → List Char → Bool
  | [], pat => startsWithL [] pat
  | c :: cs, pat => startsWithL (c :: cs) pat || containsL cs pat

/-- Go `strings.Contains`. -/
def goContains (s pat : String) : Bool :=
  containsL s.data pat.data

/-- The excluded keys of `findNonTrivialContent` (not signals of
extracted page content). -/
def isExcludedKey (kl : String) : Bool :=
  kl = "notes" || kl = "note" || kl = "summary"

/-- The content-suggesting keys of `findNonTrivialContent`. -/
def isContentKey (kl : String) : Bool :=
  kl = "content" || kl = "html" || kl = "text" || kl = "textcontent" ||
  kl = "readablecontent" || kl = "excerpt" || kl = "description" ||
  kl = "markdown" || kl = "article"

mutual

/-- `findNonTrivialContent` (the boolean result; the `sig` diagnostic
map only feeds logging).  Bounded to 6 levels of nesting. -/
def findNonTrivialContent : JValue → Nat → Bool
  | .str s, depth => if depth > 6 then false else goLen (trimSpace s) ≥ 400
  | .prim, _ => false
  | .obj fs, depth => if depth > 6 then false else findInFields fs depth
  | .arr es, depth => if depth > 6 then false else findInElems es depth

/-- The object-field loop of `findNonTrivialContent`. -/
def findInFields : JFields → Nat → Bool
  | .nil, _ => false
  | .cons k vv rest, depth =>
    let kl := asciiLower k
    (if isExcludedKey kl then false
     else
       (isContentKey kl &&
         (match vv with
          | .str s => goLen (trimSpace s) ≥ 200
          | _ => false)) ||
       findNonTrivialContent vv (depth + 1)) ||
    findInFields rest depth

/-- The array-element loop of `findNonTrivialContent`. -/
def findInElems : JElems → Nat → Bool
  | .nil, _ => false
  | .cons vv rest, depth =>
    findNonTrivialContent vv (depth + 1) || findInElems rest depth

end

/-- `hasExtractedContent` (`internal/app`): the record is ready when the
raw JSON carries an explicit success status marker, or the defensive
scan finds non-trivial content.  `raw` is the raw JSON text and
`parsed` the result of `json.Unmarshal` on it (`none` = failure). -/
def hasExtractedContent (raw : String) (parsed : Option JValue) : Bool :=
  if goLen raw = 0 then false
  else if goContains raw "\"crawlStatus\":\"success\"" ||
      goContains raw "\"taggingStatus\":\"success\"" then true
  else
    match parsed with
    | none => false
    | some v => findNonTrivialContent v 0

/-- Field lookup in a decoded JSON object (Go map indexing). -/
def jLookup (k : String) : JFields → Option JValue
  | .nil => none
  | .cons k' v rest => if k' = k then some v else jLookup k rest

/-- `karakeep.Tag` (best-effort representation). -/
structure Tag where
  id : String
  name : String
deriving DecidableEq

/-- `karakeep.Bookmark`.  `summary` is the decoded `Summary` raw message
(`none` = empty raw); `raw`/`rawParsed` model the `Raw` field as raw
JSON text plus its `json.Unmarshal` result. -/
structure Bookmark where
  id : String
  url : String
  title : String
  notes : String
  summary : Option JValue
  tags : List Tag
  raw : String
  rawParsed : Option JValue

/-- `Bookmark.SummaryText`: try a plain string, then an object with a
`text` or `summary` string field. -/
def summaryText (b : Bookmark) : String :=
  match b.summary with
  | none => ""
  | some (.str s) => trimSpace s
  | some (.obj fs) =>
    match jLookup "text" fs with
    | some (.str v) => trimSpace v
    | _ =>
      match jLookup "summary" fs with
      | some (.str v) => trimSpace v
      | _ => ""
  | some _ => ""

/-- `looksEmptySummary` (`internal/app`). -/
def looksEmptySummary (s : String) : Bool :=
  let s := asciiLower s
  goContains s "content is empty" || goContains s "no information to summarize"

/-- The Unicode replacement character: each byte of a UTF-8 fragment cut
in half by Go byte slicing decodes as one such rune. -/
def replChar : Char := Char.ofNat 0xFFFD

/-- Go byte slicing `msg[:n]` on the codepoint level: the codepoints
whose encoding fits entirely below byte `n`, plus the number of leading
bytes of the codepoint the cut splits (0 when the cut falls on a
codepoint boundary or past the end). -/
def goByteTake (n : Nat) : List Char → List Char × Nat
  | [] => ([], 0)
  | c :: cs =>
    if c.utf8Size ≤ n then
      let r := goByteTake (n - c.utf8Size) cs
      (c :: r.1, r.2)
    else ([], n)

/-- The truncation step of `userFacingKarakeepError`:
`msg[:800] + "…"`, decoded back to runes. -/
def capAt800 (l : List Char) : List Char :=
  if byteLenL l > 800 then
    (goByteTake 800 l).1 ++ List.replicate (goByteTake 800 l).2 replChar ++ ['…']
  else l

/-- The fixed part of the base message, before the status digits. -/
def kkErrHead : String := "❌ Ошибка Karakeep ("

/-- The 404 hint of `userFacingKarakeepError`. -/
def kkHint404 : String :=
  " Похоже, указан не тот адрес сервера. Укажи домен Karakeep без /api: /server https://<host>"

/-- The 401/403 hint of `userFacingKarakeepError`. -/
def kkHintAuth : String := " Проверь API key (/key) и права ключа."

/-- The 400 hint of `userFacingKarakeepError`. -/
def kkHint400 : String :=
  " Похоже, Karakeep не принял payload. Обычно это означает неверные поля запроса (url/title/notes). Я починю формат после уточнения текста ошибки в логах."

/-- `userFacingKarakeepError` (`internal/app`): translates a failed
Karakeep call to a user-facing message by HTTP status class, appending
the trimmed error text and byte-capping at 800 in the generic path.
The result is the rune decoding of the produced Go string. -/
def userFacingKarakeepError (status : Int) (err : Option String) : List Char :=
  let msg := (kkErrHead ++ toString status ++ ").").data
  if status = 404 then msg ++ kkHint404.data
  else if status = 401 ∨ status = 403 then msg ++ kkHintAuth.data
  else
    let msg := if status = 400 then msg ++ kkHint400.data else msg
    let msg :=
      match err with
      | some e => msg ++ (" " ++ trimSpace e).data
      | none => msg
    capAt800 msg

/-- The argument triple of one `client.CreateBookmark(ctx, url, title,
notes)` call. -/
structure CreateCall where
  url : String
  title : String
  notes : String
deriving DecidableEq

/-- The result triple of one `CreateBookmark` call: bookmark, HTTP
status, and error (`none` = nil). -/
structure CreateResp where
  b : Bookmark
  status : Int
  err : Option String

/-- The zero `karakeep.Bookmark`. -/
def zeroBookmark : Bookmark := ⟨"", "", "", "", none, [], "", none⟩

/-- The submission switch of `App.processMessageBatch`
(`internal/app/app.go`): given the remote `create` operation (modelled
as a function of the call arguments), the classification result, and
the timestamp label used for `file` submissions, performs the calls the
code performs and returns their argument list in call order together
with the final `(b, status, err)`. -/
def submitCreate (create : CreateCall → CreateResp) (res : Result)
    (dateLabel : String) : List CreateCall × CreateResp :=
  if res.kind = KindBookmark then
    let c : CreateCall := ⟨res.url, "", res.notes⟩
    ([c], create c)
  else if res.kind = KindNote then
    let c1 : CreateCall := ⟨"", "", res.text⟩
    let r1 := create c1
    match res.urls with
    | u :: _ =>
      if r1.err ≠ none then
        let c2 : CreateCall := ⟨u, "", res.text⟩
        ([c1, c2], create c2)
      else ([c1], r1)
    | [] => ([c1], r1)
  else if res.kind = KindFile then
    let c : CreateCall := ⟨"", "", "Telegram media (" ++ dateLabel ++ ")"⟩
    ([c], create c)
  else ([], ⟨zeroBookmark, 0, none⟩)

/-- The interval actually used by a Polling Waiter (seconds):
`if interval <= 0 { interval = 3 * time.Second }`. -/
def normInterval (interval : Int) : Nat :=
  (if interval ≤ 0 then 3 else interval).toNat

/-- The timeout actually used by a Polling Waiter (seconds):
`if timeout <= 0 { timeout = 3 * time.Minute }`. -/
def normTimeout (timeout : Int) : Nat :=
  (if timeout ≤ 0 then 180 else timeout).toNat

/-- The body of one extraction poll: the `GetBookmark` read succeeded
(`err == nil`) and `hasExtractedContent` accepts the record. -/
def ecReady (fetch : Nat → Option Bookmark) (n : Nat) : Bool :=
  match fetch n with
  | some got => hasExtractedContent got.raw got.rawParsed
  | none => false

/-- The poll loop of `App.waitForExtractedContent` under an idealized
clock: the `n`-th read happens `n * i` seconds after start; `fetch n`
is the `GetBookmark` result of that read (`none` = error) and
`cancel n` tells whether the context is done during the `n`-th wait.
Returns the boolean result and the elapsed time at return.  `fuel`
bounds the recursion; the entry point supplies enough fuel for the
deadline check to fire first. -/
def ecLoop (fetch : Nat → Option Bookmark) (cancel : Nat → Bool) (i T : Nat) :
    Nat → Nat → Bool × Nat
  | 0, n => (false, n * i)
  | fuel + 1, n =>
    if ecReady fetch n then (true, n * i)
    else if n * i > T then (false, n * i)
    else if cancel n then (false, n * i)
    else ecLoop fetch cancel i T fuel (n + 1)

/-- `App.waitForExtractedContent` (`internal/app`): polls `GetBookmark`
every `interval` until `hasExtractedContent` holds or `timeout` has
elapsed, honouring cancellation. -/
def waitForExtractedContent (fetch : Nat → Option Bookmark) (cancel : Nat → Bool)
    (interval timeout : Int) : Bool × Nat :=
  let i := normInterval interval
  let T := normTimeout timeout
  ecLoop fetch cancel i T (T / i + 2) 0

/-- Summary readiness: the decoded summary text is non-empty and not a
recognized empty-content placeholder. -/
def summaryReady (got : Bookmark) : Bool :=
  let s := trimSpace (summaryText got)
  s ≠ "" && !looksEmptySummary s

/-- The poll loop of `App.waitForNonEmptySummary`: like `ecLoop`, but
each iteration first triggers `Summarize` (absorbed into the oracle)
and on readiness returns the fetched bookmark. -/
def nsLoop (fetch : Nat → Option Bookmark) (cancel : Nat → Bool) (i T : Nat) :
    Nat → Nat → Bookmark × Bool × Nat
  | 0, n => (zeroBookmark, false, n * i)
  | fuel + 1, n =>
    match fetch n with
    | some got =>
      if summaryReady got then (got, true, n * i)
      else if n * i > T then (zeroBookmark, false, n * i)
      else if cancel n then (zeroBookmark, false, n * i)
      else nsLoop fetch cancel i T fuel (n + 1)
    | none =>
      if n * i > T then (zeroBookmark, false, n * i)
      else if cancel n then (zeroBookmark, false, n * i)
      else nsLoop fetch cancel i T fuel (n + 1)

/-- `App.waitForNonEmptySummary` (`internal/app`): polls
`Summarize` + `GetBookmark` every `interval` until the summary text is
non-empty and not a placeholder, or `timeout` has elapsed. -/
def waitForNonEmptySummary (fetch : Nat → Option Bookmark) (cancel : Nat → Bool)
    (interval timeout : Int) : Bookmark × Bool × Nat :=
  let i := normInterval interval
  let T := normTimeout timeout
  nsLoop fetch cancel i T (T / i + 2) 0

/-- The live state of the `MediaGroupCollector`
(`internal/telegram/webhook.go`): for each live group identifier, the
accumulated messages in arrival order and the current timer deadline
(fire time of the pending `time.AfterFunc`/`Reset`). -/
abbrev MGState := List (String × List Message × Int)

/-- Lookup of a live group. -/
def mgLookup (g : String) : MGState → Option (List Message × Int)
  | [] => none
  | (g', e) :: rest => if g' = g then some e else mgLookup g rest

/-- Removal of a group (`delete(c.groups, groupID)`). -/
def mgRemove (g : String) (st : MGState) : MGState :=
  st.filter (fun e => e.1 ≠ g)

/-- `MediaGroupCollector.Collect` at time `t`: messages without a group
identifier are ignored; a first message creates the group with deadline
`t + delay`; every message appends and resets the deadline to
`t + delay`. -/
def mgCollect (delay : Int) (st : MGState) (m : Message) (t : Int) : MGState :=
  if m.mediaGroupID = "" then st
  else
    match mgLookup m.mediaGroupID st with
    | some (msgs, _) =>
      st.map (fun e => if e.1 = m.mediaGroupID then (e.1, msgs ++ [m], t + delay) else e)
    | none => st ++ [(m.mediaGroupID, [m], t + delay)]

/-- `MediaGroupCollector.flush`: removes the group state and invokes the
callback with the accumulated batch when it is non-empty; a fire for an
already-removed group is a no-op. -/
def mgFire (st : MGState) (g : String) : MGState × Option (String × List Message) :=
  match mgLookup g st with
  | some (msgs, _) =>
    (mgRemove g st, if msgs ≠ [] then some (g, msgs) else none)
  | none => (st, none)

/-- An observable event of the collector: a `Collect` call or a timer
expiry, each with its (idealized, atomic) time. -/
inductive MGEvent where
  | collect : Message → Int → MGEvent
  | fire : String → Int → MGEvent

/-- Trace validity from state `st` after time `tprev`: times are
nondecreasing, and a timer fires exactly at the current deadline of a
live group (a reset timer does not fire at its superseded deadline). -/
def mgValid (delay : Int) (st : MGState) (tprev : Int) : List MGEvent → Prop
  | [] => True
  | .collect m t :: rest =>
    tprev ≤ t ∧ mgValid delay (mgCollect delay st m t) t rest
  | .fire g t :: rest =>
    tprev ≤ t ∧ (∀ e, mgLookup g st = some e → e.2 = t) ∧
      mgValid delay (mgFire st g).1 t rest

/-- Running the collector over a trace: final state plus the flushes
emitted, in order, each with the group, the batch, and the fire time. -/
def mgRun (delay : Int) (st : MGState) :
    List MGEvent → MGState × List (String × List Message × Int)
  | [] => (st, [])
  | .collect m t :: rest => mgRun delay (mgCollect delay st m t) rest
  | .fire g t :: rest =>
    let (st', out) := mgFire st g
    let (stf, outs) := mgRun delay st' rest
    match out with
    | some (g', msgs) => (stf, (g', msgs, t) :: outs)
    | none => (stf, outs)

/-! Spec-side definitions: formulations that follow the specification's
words, to be compared with the definitions embedded from the source. -/

/-- Spec 4.2: the URL one entity contributes — an explicit link entity
contributes its URL directly, an auto-detected URL entity contributes
the resolved text span, any other entity contributes nothing. -/
def entityContribution (text : String) (e : MessageEntity) : Option String :=
  if e.type = "text_link" then some e.url
  else if e.type = "url" then some (sliceByUTF16 text e.offset e.length)
  else none

/-- Spec 4.2: trailing-punctuation stripping with whitespace trimming
around it, as applied to every extracted URL. -/
def cleanURL (u : String) : String :=
  trimSpace (stripTrailingPunct (trimSpace u))

/-- Spec 4.2: deduplication by exact string match in which the first
occurrence keeps its output position. -/
def dedupFirst : List String → List String
  | [] => []
  | u :: rest => u :: dedupFirst (rest.filter (fun v => v ≠ u))
termination_by l => l.length
decreasing_by
  simp only [List.length_cons]
  exact Nat.lt_succ_of_le (List.length_filter_le _ _)

/-- Spec 4.4: the default filename applied when a candidate has none. -/
def applyDefaultFilename (a : Attachment) : Attachment :=
  if trimSpace a.filename = "" then { a with filename := "upload.bin" } else a

/-- Spec 4.4: deduplication by file identifier in which the first
occurrence is kept and later duplicates are dropped. -/
def dedupByFileID : List Attachment → List Attachment
  | [] => []
  | a :: rest => a :: dedupByFileID (rest.filter (fun b => b.fileID ≠ a.fileID))
termination_by l => l.length
decreasing_by
  simp only [List.length_cons]
  exact Nat.lt_succ_of_le (List.length_filter_le _ _)

/-- The content-suggesting key list as the claim states it:
content/html/text/excerpt/description/markdown/article. -/
def claimContentKey (kl : String) : Bool :=
  kl = "content" || kl = "html" || kl = "text" || kl = "excerpt" ||
  kl = "description" || kl = "markdown" || kl = "article"

/-- The content-suggesting key list of the source, spelled out:
content/html/text/textcontent/readablecontent/excerpt/description/
markdown/article. -/
def specContentKey (kl : String) : Bool :=
  kl = "content" || kl = "html" || kl = "text" || kl = "textcontent" ||
  kl = "readablecontent" || kl = "excerpt" || kl = "description" ||
  kl = "markdown" || kl = "article"

/-- A string-valued field of trimmed length at least 200 bytes. -/
def isLongContentStr : JValue → Bool
  | .str s => goLen (trimSpace s) ≥ 200
  | _ => false

mutual

/-- Spec 4.7: the recursive readiness scan, bounded to 6 levels of
nesting, parameterized by the admissible content-key set. -/
def specScan (keys : String → Bool) : JValue → Nat → Bool
  | .str s, d => d ≤ 6 && goLen (trimSpace s) ≥ 400
  | .prim, _ => false
  | .obj fs, d => d ≤ 6 && specScanFields keys fs d
  | .arr es, d => d ≤ 6 && specScanElems keys es d

/-- Spec 4.7: scan of the fields of an object; fields keyed
notes/note/summary are excluded from the scan entirely. -/
def specScanFields (keys : String → Bool) : JFields → Nat → Bool
  | .nil, _ => false
  | .cons k v rest, d =>
    (!isExcludedKey (asciiLower k) &&
      ((keys (asciiLower k) && isLongContentStr v) || specScan keys v (d + 1))) ||
    specScanFields keys rest d

/-- Spec 4.7: scan of the elements of an array. -/
def specScanElems (keys : String → Bool) : JElems → Nat → Bool
  | .nil, _ => false
  | .cons v rest, d =>
    specScan keys v (d + 1) || specScanElems keys rest d

end

/-- The extraction-readiness predicate as the spec describes it: an
explicit success status marker in the raw representation, or the
bounded recursive scan succeeds on the decoded structure. -/
def claimReadiness (keys : String → Bool) (raw : String) (parsed : Option JValue) : Bool :=
  goContains raw "\"crawlStatus\":\"success\"" ||
  goContains raw "\"taggingStatus\":\"success\"" ||
  (match parsed with
   | some v => specScan keys v 0
   | none => false)

/-- Summary readiness of the `n`-th poll. -/
def nsReady (fetch : Nat → Option Bookmark) (n : Nat) : Bool :=
  match fetch n with
  | some got => summaryReady got
  | none => false

/-- The error-text suffix appended in the generic path of
`userFacingKarakeepError`. -/
def errSuffix : Option String → List Char
  | some e => (" " ++ trimSpace e).data
  | none => []

/-- The messages a run of the collector flushes for group `g`,
concatenated in flush order. -/
def flushedFor (g : String) (outs : List (String × List Message × Int)) : List Message :=
  outs.flatMap (fun o => if o.1 = g then o.2.1 else [])

/-- The messages currently pending for group `g`. -/
def pendingFor (g : String) (st : MGState) : List Message :=
  match mgLookup g st with
  | some (msgs, _) => msgs
  | none => []

/-- The messages a trace collects for group `g`, in arrival order. -/
def collectedFor (g : String) : List MGEvent → List Message
  | [] => []
  | .collect m _ :: rest =>
    (if m.mediaGroupID = g ∧ m.mediaGroupID ≠ "" then [m] else []) ++ collectedFor g rest
  | .fire _ _ :: rest => collectedFor g rest

/-- The time of the last `Collect` call for group `g` in a trace. -/
def lastCollectTime (g : String) : List MGEvent → Option Int
  | [] => none
  | .collect m t :: rest =>
    match lastCollectTime g rest with
    | some t' => some t'
    | none => if m.mediaGroupID = g then some t else none
  | .fire _ _ :: rest => lastCollectTime g rest

/-- A message with all fields at their zero values. -/
def blankMessage : Message :=
  ⟨"", "", [], [], [], none, none, none, none, none, none, none, "", 0⟩

/-! Theorems. -/

/-- C10: ClassifyMessage is total at its public interface: a nil message
yields a Result of kind note with all other fields at their zero values,
and for every input the returned kind is exactly one of bookmark, note,
or file. -/
theorem classifyMessage_totality :
    classifyMessage none = ⟨KindNote, "", "", "", [], false⟩ ∧
    ∀ m : Option Message,
      (classifyMessage m).kind = KindBookmark ∨ (classifyMessage m).kind = KindNote ∨
        (classifyMessage m).kind = KindFile := by
  refine ⟨rfl, ?_⟩
  intro m
  cases m with
  | none => right; left; rfl
  | some msg =>
    simp only [classifyMessage]
    split
    · right; right; rfl
    · split
      · right; left; rfl
      · split
        · right; left; rfl
        · split
          · left; rfl
          · left; rfl
        · right; left; rfl

/-- C2: code bug.  On the repository's own test input
(`TestSliceByUTF16`), `SliceByUTF16 "a😊b" 0 1` must return `"a"` (the
substring addressed by code-unit offset 0 and length 1), but the code's
post-loop clamp `endCU >= curCU` fires after the early break whenever
the requested end falls on a rune boundary, so the whole string is
returned. -/
theorem sliceByUTF16_cex :
    sliceByUTF16 "a😊b" 0 1 = "a😊b" ∧ ("a😊b" : String) ≠ "a" := by
  constructor
  · decide
  · decide


/-- C1: ClassifyMessage follows the precedence table: media with no
text and no URLs gives file; media otherwise gives note with text and
the full URL list; no media and zero URLs gives note; no media and one
URL gives bookmark (empty notes when the trimmed text equals the URL,
else the trimmed text as notes with the URL list attached); no media
and two or more URLs gives note with text and the full URL list. -/
theorem classifyMessage_table (msg : Message) (text : String) (urls : List String) (hm : Bool)
    (ht : text = trimSpace (firstNonEmpty msg.text msg.caption))
    (hu : urls = extractURLsFromMessage (some msg))
    (hmm : hm = messageHasMedia (some msg)) :
    (hm = true → text = "" → urls = [] →
      classifyMessage (some msg) = ⟨KindFile, "", "", "", [], true⟩) ∧
    (hm = true → (text ≠ "" ∨ urls ≠ []) →
      classifyMessage (some msg) = ⟨KindNote, "", "", text, urls, true⟩) ∧
    (hm = false → urls = [] →
      classifyMessage (some msg) = ⟨KindNote, "", "", text, [], false⟩) ∧
    (hm = false → ∀ u, urls = [u] →
      (text = trimSpace u →
        classifyMessage (some msg) = ⟨KindBookmark, trimSpace u, "", "", [], false⟩) ∧
      (text ≠ trimSpace u →
        classifyMessage (some msg) = ⟨KindBookmark, trimSpace u, text, "", [u], false⟩)) ∧
    (hm = false → ∀ u v rest, urls = u :: v :: rest →
      classifyMessage (some msg) = ⟨KindNote, "", "", text, urls, false⟩) := by
  subst ht hu hmm
  refine ⟨?_, ?_, ?_, ?_, ?_⟩
  · intro h1 h2 h3
    simp [classifyMessage, h1, h2, h3]
  · intro h1 h2
    rcases h2 with h2 | h2 <;> simp [classifyMessage, h1, h2]
  · intro h1 h2
    simp [classifyMessage, h1, h2]
  · intro h1 u h2
    constructor
    · intro h3
      simp [classifyMessage, h1, h2, h3]
    · intro h3
      simp [classifyMessage, h1, h2, h3]
  · intro h1 u v rest h2
    simp [classifyMessage, h1, h2]


theorem addURL_eq (su : List String × List String) (u : String) :
    addURL su u =
      if cleanURL u = "" then su
      else if cleanURL u ∈ su.1 then su
      else (cleanURL u :: su.1, su.2 ++ [cleanURL u]) := rfl

theorem extractURLs_foldl_filterMap (text : String) (ents : List MessageEntity) :
    ∀ su : List String × List String,
    List.foldl
      (fun su e =>
        if e.type = "text_link" then addURL su e.url
        else if e.type = "url" then addURL su (sliceByUTF16 text e.offset e.length)
        else su)
      su ents
    = List.foldl addURL su (ents.filterMap (entityContribution text)) := by
  induction ents with
  | nil => intro su; rfl
  | cons e rest ih =>
    intro su
    simp only [List.foldl_cons, List.filterMap_cons, entityContribution]
    split_ifs with h1 h2 <;> simp only [List.foldl_cons, ih]

theorem addURL_foldl_spec (us : List String) :
    ∀ seen out : List String,
    (List.foldl addURL (seen, out) us).2
      = out ++ dedupFirst ((us.map cleanURL).filter (fun c => decide (¬(c = "" ∨ c ∈ seen)))) := by
  induction us with
  | nil => intro seen out; simp [dedupFirst]
  | cons u rest ih =>
    intro seen out
    simp only [List.foldl_cons, List.map_cons, List.filter_cons]
    rw [addURL_eq]
    by_cases h0 : cleanURL u = ""
    · rw [if_pos h0]
      have hfalse : (decide (¬(cleanURL u = "" ∨ cleanURL u ∈ seen))) = false := by
        simp [h0]
      rw [hfalse, if_neg (by simp)]
      exact ih seen out
    · rw [if_neg h0]
      by_cases h1 : cleanURL u ∈ seen
      · rw [if_pos h1]
        have hfalse : (decide (¬(cleanURL u = "" ∨ cleanURL u ∈ seen))) = false := by
          simp [h1]
        rw [hfalse, if_neg (by simp)]
        exact ih seen out
      · rw [if_neg h1]
        have hp : (decide (¬(cleanURL u = "" ∨ cleanURL u ∈ seen))) = true := by
          simp [h0, h1]
        rw [hp]
        simp only [if_pos]
        rw [ih (cleanURL u :: seen) (out ++ [cleanURL u])]
        rw [dedupFirst]
        have hfe : ((rest.map cleanURL).filter
              (fun c => decide (¬(c = "" ∨ c ∈ cleanURL u :: seen))))
            = (((rest.map cleanURL).filter
              (fun c => decide (¬(c = "" ∨ c ∈ seen)))).filter
                (fun v => decide (v ≠ cleanURL u))) := by
          rw [List.filter_filter]
          apply List.filter_congr
          intro v _
          by_cases hv1 : v = "" <;> by_cases hv2 : v ∈ seen <;>
            by_cases hv3 : v = cleanURL u <;> simp [hv1, hv2, hv3]
        rw [hfe, List.append_assoc]
        rfl


theorem mem_dedupFirst {a : String} : ∀ {l : List String}, a ∈ dedupFirst l → a ∈ l := by
  intro l
  induction l using dedupFirst.induct with
  | case1 => intro h; rw [dedupFirst] at h; exact absurd h (List.not_mem_nil a)
  | case2 u rest ih =>
    intro h
    rw [dedupFirst] at h
    rcases List.mem_cons.mp h with h | h
    · exact h ▸ List.mem_cons_self _ _
    · exact List.mem_cons_of_mem _ (List.mem_of_mem_filter (ih h))

theorem dedupFirst_nodup : ∀ l : List String, (dedupFirst l).Nodup := by
  intro l
  induction l using dedupFirst.induct with
  | case1 => simp [dedupFirst]
  | case2 u rest ih =>
    rw [dedupFirst]
    refine List.nodup_cons.mpr ⟨?_, ih⟩
    intro hmem
    have := List.mem_filter.mp (mem_dedupFirst hmem)
    simp at this

/-- C6: ExtractURLs equals the first-occurrence deduplication of the
entity contributions (text_link entities contribute their URL, url
entities the resolved span), each cleaned by trimming and stripping
trailing punctuation, with empty results discarded; the output has no
duplicates; and the spec's link-entity example extracts exactly the
target URL. -/
theorem extractURLs_refines (text : String) (ents : List MessageEntity) :
    extractURLs text ents =
      dedupFirst (((ents.filterMap (entityContribution text)).map cleanURL).filter
        (fun u => decide (u ≠ ""))) ∧
    (extractURLs text ents).Nodup ∧
    extractURLs "click here" [⟨"text_link", 0, 5, "https://example.com"⟩]
      = ["https://example.com"] := by
  have hmain : extractURLs text ents =
      dedupFirst (((ents.filterMap (entityContribution text)).map cleanURL).filter
        (fun u => decide (u ≠ ""))) := by
    unfold extractURLs
    rw [extractURLs_foldl_filterMap, addURL_foldl_spec]
    simp only [List.nil_append]
    congr 1
    apply List.filter_congr
    intro v _
    simp
  refine ⟨hmain, ?_, by decide⟩
  rw [hmain]
  exact dedupFirst_nodup _


theorem applyDefaultFilename_fileID (a : Attachment) :
    (applyDefaultFilename a).fileID = a.fileID := by
  unfold applyDefaultFilename
  split <;> rfl

theorem addAtt_eq (sa : List String × List Attachment) (a : Attachment) :
    addAtt sa a =
      if trimSpace a.fileID = "" then sa
      else if a.fileID ∈ sa.1 then sa
      else (a.fileID :: sa.1, sa.2 ++ [applyDefaultFilename a]) := by
  unfold addAtt applyDefaultFilename
  split_ifs <;> rfl

theorem extractAttachments_foldl (msgs : List (Option Message)) :
    ∀ sa : List String × List Attachment,
    List.foldl
      (fun sa om =>
        match om with
        | none => sa
        | some msg => (msgCandidates msg).foldl addAtt sa)
      sa msgs
    = List.foldl addAtt sa (msgs.flatMap (fun om => om.elim [] msgCandidates)) := by
  induction msgs with
  | nil => intro sa; rfl
  | cons om rest ih =>
    intro sa
    cases om with
    | none => simp only [List.foldl_cons, List.flatMap_cons, Option.elim,
        List.nil_append, ih]
    | some msg =>
      simp only [List.foldl_cons, List.flatMap_cons, Option.elim, ih,
        List.foldl_append]

theorem addAtt_foldl_spec (cands : List Attachment) :
    ∀ (seen : List String) (out : List Attachment),
    (List.foldl addAtt (seen, out) cands).2
      = out ++ dedupByFileID ((cands.filter
          (fun a => decide (¬(trimSpace a.fileID = "" ∨ a.fileID ∈ seen)))).map
            applyDefaultFilename) := by
  induction cands with
  | nil => intro seen out; simp [dedupByFileID]
  | cons a rest ih =>
    intro seen out
    simp only [List.foldl_cons, List.filter_cons]
    rw [addAtt_eq]
    by_cases h0 : trimSpace a.fileID = ""
    · rw [if_pos h0]
      have hfalse : (decide (¬(trimSpace a.fileID = "" ∨ a.fileID ∈ seen))) = false := by
        simp [h0]
      rw [hfalse, if_neg (by simp)]
      exact ih seen out
    · rw [if_neg h0]
      by_cases h1 : a.fileID ∈ seen
      · rw [if_pos h1]
        have hfalse : (decide (¬(trimSpace a.fileID = "" ∨ a.fileID ∈ seen))) = false := by
          simp [h1]
        rw [hfalse, if_neg (by simp)]
        exact ih seen out
      · rw [if_neg h1]
        have hp : (decide (¬(trimSpace a.fileID = "" ∨ a.fileID ∈ seen))) = true := by
          simp [h0, h1]
        rw [hp]
        simp only [if_pos]
        rw [ih (a.fileID :: seen) (out ++ [applyDefaultFilename a])]
        simp only [List.map_cons]
        rw [dedupByFileID]
        have hfe : ((rest.filter
              (fun b => decide (¬(trimSpace b.fileID = "" ∨ b.fileID ∈ a.fileID :: seen)))).map
                applyDefaultFilename)
            = (((rest.filter
              (fun b => decide (¬(trimSpace b.fileID = "" ∨ b.fileID ∈ seen)))).map
                applyDefaultFilename).filter
                  (fun b => decide (b.fileID ≠ (applyDefaultFilename a).fileID))) := by
          rw [List.filter_map, List.filter_filter]
          congr 1
          apply List.filter_congr
          intro b _
          simp only [Function.comp, applyDefaultFilename_fileID]
          by_cases hv1 : trimSpace b.fileID = "" <;> by_cases hv2 : b.fileID ∈ seen <;>
            by_cases hv3 : b.fileID = a.fileID <;> simp [hv1, hv2, hv3]
        rw [hfe, List.append_assoc]
        rfl

theorem mem_dedupByFileID {b : Attachment} :
    ∀ {l : List Attachment}, b ∈ dedupByFileID l → b ∈ l := by
  intro l
  induction l using dedupByFileID.induct with
  | case1 => intro h; rw [dedupByFileID] at h; exact absurd h (List.not_mem_nil b)
  | case2 a rest ih =>
    intro h
    rw [dedupByFileID] at h
    rcases List.mem_cons.mp h with h | h
    · exact h ▸ List.mem_cons_self _ _
    · exact List.mem_cons_of_mem _ (List.mem_of_mem_filter (ih h))

theorem dedupByFileID_fileID_nodup :
    ∀ l : List Attachment, ((dedupByFileID l).map (fun a => a.fileID)).Nodup := by
  intro l
  induction l using dedupByFileID.induct with
  | case1 => simp [dedupByFileID]
  | case2 a rest ih =>
    rw [dedupByFileID]
    simp only [List.map_cons]
    refine List.nodup_cons.mpr ⟨?_, ih⟩
    intro hmem
    rcases List.mem_map.mp hmem with ⟨b, hb, hfid⟩
    have := List.mem_filter.mp (mem_dedupByFileID hb)
    simp [hfid] at this

/-- C7: ExtractAttachments equals the first-occurrence deduplication by
file identifier of the per-message candidates (with blank-identifier
candidates dropped and default filenames applied), its file identifiers
are pairwise distinct, and a batch repeating one sticker yields exactly
one attachment. -/
theorem extractAttachments_refines (msgs : List (Option Message)) :
    extractAttachments msgs =
      dedupByFileID (((msgs.flatMap (fun om => om.elim [] msgCandidates)).filter
        (fun a => decide (trimSpace a.fileID ≠ ""))).map applyDefaultFilename) ∧
    ((extractAttachments msgs).map (fun a => a.fileID)).Nodup ∧
    extractAttachments
        [some { blankMessage with sticker := some ⟨"sticker-1", false, 7⟩ },
         some { blankMessage with sticker := some ⟨"sticker-1", false, 7⟩ }]
      = [⟨"sticker-1", "sticker.webp", "", 7⟩] := by
  have hmain : extractAttachments msgs =
      dedupByFileID (((msgs.flatMap (fun om => om.elim [] msgCandidates)).filter
        (fun a => decide (trimSpace a.fileID ≠ ""))).map applyDefaultFilename) := by
    unfold extractAttachments
    rw [extractAttachments_foldl, addAtt_foldl_spec]
    simp only [List.nil_append]
    congr 2
    apply List.filter_congr
    intro v _
    simp
  refine ⟨hmain, ?_, by decide⟩
  rw [hmain]
  exact dedupByFileID_fileID_nodup _


/-- C8: the submission switch performs exactly one create call for
bookmark-kind and file-kind results (never retried); for a note-kind
result whose text-only create fails while the classification carried at
least one URL it performs exactly one retry, using the first URL;
otherwise the note-kind call is not retried; and no other kind makes
any call. -/
theorem submitCreate_retry (create : CreateCall → CreateResp) (res : Result) (dateLabel : String) :
    (res.kind = KindBookmark →
      (submitCreate create res dateLabel).1 = [⟨res.url, "", res.notes⟩]) ∧
    (res.kind = KindFile →
      (submitCreate create res dateLabel).1
        = [⟨"", "", "Telegram media (" ++ dateLabel ++ ")"⟩]) ∧
    (res.kind = KindNote → ∀ u rest, res.urls = u :: rest →
      (create ⟨"", "", res.text⟩).err ≠ none →
      (submitCreate create res dateLabel).1 = [⟨"", "", res.text⟩, ⟨u, "", res.text⟩]) ∧
    (res.kind = KindNote →
      ((create ⟨"", "", res.text⟩).err = none ∨ res.urls = []) →
      (submitCreate create res dateLabel).1 = [⟨"", "", res.text⟩]) ∧
    (res.kind ≠ KindBookmark → res.kind ≠ KindNote → res.kind ≠ KindFile →
      (submitCreate create res dateLabel).1 = []) := by
  refine ⟨?_, ?_, ?_, ?_, ?_⟩
  · intro h
    simp [submitCreate, h, KindBookmark]
  · intro h
    simp [submitCreate, h, KindBookmark, KindNote, KindFile]
  · intro h u rest h2 h3
    simp [submitCreate, h, KindBookmark, KindNote, h2, h3]
  · intro h h2
    rcases h2 with h2 | h2
    · cases hres : res.urls <;> simp [submitCreate, h, KindBookmark, KindNote, h2, hres]
    · simp [submitCreate, h, KindBookmark, KindNote, h2]
  · intro h1 h2 h3
    simp [submitCreate, h1, h2, h3]


theorem byteLenL_append (a b : List Char) :
    byteLenL (a ++ b) = byteLenL a + byteLenL b := by
  simp [byteLenL]

theorem length_le_byteLenL (l : List Char) : l.length ≤ byteLenL l := by
  induction l with
  | nil => simp [byteLenL]
  | cons c rest ih =>
    simp only [byteLenL, List.map_cons, List.sum_cons, List.length_cons]
    have := Char.utf8Size_pos c
    have : byteLenL rest = (rest.map Char.utf8Size).sum := rfl
    omega

theorem goByteTake_le (l : List Char) :
    ∀ n, byteLenL (goByteTake n l).1 + (goByteTake n l).2 ≤ n := by
  induction l with
  | nil => intro n; simp [goByteTake, byteLenL]
  | cons c rest ih =>
    intro n
    unfold goByteTake
    split
    · have := ih (n - c.utf8Size)
      simp only [byteLenL, List.map_cons, List.sum_cons]
      have hb : byteLenL (goByteTake (n - c.utf8Size) rest).1
          = ((goByteTake (n - c.utf8Size) rest).1.map Char.utf8Size).sum := rfl
      omega
    · simp [byteLenL]

theorem goByteTake_append (a : List Char) :
    ∀ (n : Nat) (b : List Char), byteLenL a ≤ n →
    goByteTake n (a ++ b)
      = (a ++ (goByteTake (n - byteLenL a) b).1, (goByteTake (n - byteLenL a) b).2) := by
  induction a with
  | nil => intro n b _; simp [byteLenL]
  | cons c rest ih =>
    intro n b h
    have hsz : byteLenL (c :: rest) = c.utf8Size + byteLenL rest := by
      simp [byteLenL]
    have hc : c.utf8Size ≤ n := by omega
    simp only [List.cons_append, goByteTake]
    rw [if_pos hc]
    simp only [List.append_eq]
    rw [ih (n - c.utf8Size) b (by omega)]
    have heq : n - c.utf8Size - byteLenL rest = n - byteLenL (c :: rest) := by omega
    simp [heq]

theorem capAt800_length_le (tail : List Char) :
    (capAt800 (kkErrHead.data ++ tail)).length ≤ 800 := by
  unfold capAt800
  split
  · have hhead : byteLenL kkErrHead.data = 27 := by decide
    have hheadlen : kkErrHead.data.length = 19 := by decide
    rw [goByteTake_append kkErrHead.data 800 tail (by omega)]
    simp only [List.length_append, List.length_replicate, List.length_cons,
      List.length_nil, hheadlen]
    have h1 := goByteTake_le tail (800 - byteLenL kkErrHead.data)
    have h2 := length_le_byteLenL (goByteTake (800 - byteLenL kkErrHead.data) tail).1
    omega
  · rename_i h
    have h2 := length_le_byteLenL (kkErrHead.data ++ tail)
    omega


/-- C9: the user-facing Karakeep error message is selected by HTTP
status class — 404 yields the wrong-server-address hint, 401/403 the
check-credential hint, 400 the payload-rejected hint with the error
excerpt appended, and other statuses the generic message with the
truncated error excerpt — and the resulting message never exceeds 800
characters (for any realistically rendered status). -/
theorem userFacingKarakeepError_spec (status : Int) (err : Option String)
    (hd : (toString status).length ≤ 100) :
    (status = 404 →
      userFacingKarakeepError status err
        = (kkErrHead ++ toString status ++ ")." ++ kkHint404).data) ∧
    (status = 401 ∨ status = 403 →
      userFacingKarakeepError status err
        = (kkErrHead ++ toString status ++ ")." ++ kkHintAuth).data) ∧
    (status = 400 →
      userFacingKarakeepError status err
        = capAt800 ((kkErrHead ++ toString status ++ ")." ++ kkHint400).data ++ errSuffix err)) ∧
    (status ≠ 404 → status ≠ 401 → status ≠ 403 → status ≠ 400 →
      userFacingKarakeepError status err
        = capAt800 ((kkErrHead ++ toString status ++ ").").data ++ errSuffix err)) ∧
    (userFacingKarakeepError status err).length ≤ 800 := by
  have hsel :
      (status = 404 →
        userFacingKarakeepError status err
          = (kkErrHead ++ toString status ++ ")." ++ kkHint404).data) ∧
      (status = 401 ∨ status = 403 →
        userFacingKarakeepError status err
          = (kkErrHead ++ toString status ++ ")." ++ kkHintAuth).data) ∧
      (status = 400 →
        userFacingKarakeepError status err
          = capAt800 ((kkErrHead ++ toString status ++ ")." ++ kkHint400).data ++ errSuffix err)) ∧
      (status ≠ 404 → status ≠ 401 → status ≠ 403 → status ≠ 400 →
        userFacingKarakeepError status err
          = capAt800 ((kkErrHead ++ toString status ++ ").").data ++ errSuffix err)) := by
    refine ⟨?_, ?_, ?_, ?_⟩
    · intro h
      simp [userFacingKarakeepError, h, String.data_append]
    · intro h
      rcases h with h | h <;> simp [userFacingKarakeepError, h, String.data_append]
    · intro h
      cases err <;>
        simp [userFacingKarakeepError, h, errSuffix, String.data_append, capAt800]
    · intro h1 h2 h3 h4
      cases err <;>
        simp [userFacingKarakeepError, h1, h2, h3, h4, errSuffix, String.data_append, capAt800]
  refine ⟨hsel.1, hsel.2.1, hsel.2.2.1, hsel.2.2.2, ?_⟩
  have hlen : ∀ s : String, s.length = s.data.length := fun _ => rfl
  by_cases h1 : status = 404
  · rw [hsel.1 h1]
    simp only [String.data_append, List.length_append]
    have e1 : kkErrHead.data.length = 19 := by decide
    have e3 : kkHint404.data.length = 91 := by decide
    have e4 : (toString status).data.length ≤ 100 := hd
    simp only [List.length_cons, List.length_nil]
    omega
  by_cases h2 : status = 401 ∨ status = 403
  · rw [hsel.2.1 h2]
    simp only [String.data_append, List.length_append]
    have e1 : kkErrHead.data.length = 19 := by decide
    have e3 : kkHintAuth.data.length = 38 := by decide
    have e4 : (toString status).data.length ≤ 100 := hd
    simp only [List.length_cons, List.length_nil]
    omega
  push_neg at h2
  by_cases h3 : status = 400
  · rw [hsel.2.2.1 h3]
    have : (kkErrHead ++ toString status ++ ")." ++ kkHint400).data ++ errSuffix err
        = kkErrHead.data ++ (((toString status ++ ")." ++ kkHint400).data) ++ errSuffix err) := by
      simp [String.data_append]
    rw [this]
    exact capAt800_length_le _
  · rw [hsel.2.2.2 h1 h2.1 h2.2 h3]
    have : (kkErrHead ++ toString status ++ ").").data ++ errSuffix err
        = kkErrHead.data ++ (((toString status ++ ").").data) ++ errSuffix err) := by
      simp [String.data_append]
    rw [this]
    exact capAt800_length_le _


mutual

theorem findV_eq_spec (v : JValue) (d : Nat) :
    findNonTrivialContent v d = specScan specContentKey v d := by
  cases v with
  | str s =>
    rw [findNonTrivialContent, specScan]
    by_cases h : d > 6
    · simp [h, show ¬(d ≤ 6) by omega]
    · simp [h, show d ≤ 6 by omega]
  | prim => rfl
  | obj fs =>
    rw [findNonTrivialContent, specScan]
    by_cases h : d > 6
    · simp [h, show ¬(d ≤ 6) by omega]
    · simp [h, show d ≤ 6 by omega, findF_eq_spec fs d]
  | arr es =>
    rw [findNonTrivialContent, specScan]
    by_cases h : d > 6
    · simp [h, show ¬(d ≤ 6) by omega]
    · simp [h, show d ≤ 6 by omega, findE_eq_spec es d]

theorem findF_eq_spec (fs : JFields) (d : Nat) :
    findInFields fs d = specScanFields specContentKey fs d := by
  cases fs with
  | nil => rfl
  | cons k v rest =>
    have hrest := findF_eq_spec rest d
    have hv := findV_eq_spec v (d + 1)
    cases v <;> by_cases hex : isExcludedKey (asciiLower k) = true <;>
      simp [findInFields, specScanFields, hex, hrest, hv, isLongContentStr,
        isContentKey, specContentKey]

theorem findE_eq_spec (es : JElems) (d : Nat) :
    findInElems es d = specScanElems specContentKey es d := by
  cases es with
  | nil => rfl
  | cons v rest =>
    rw [findInElems, specScanElems]
    rw [findE_eq_spec rest d, findV_eq_spec v (d + 1)]

end


theorem goLen_eq_zero {s : String} (h : goLen s = 0) : s = "" := by
  cases s with
  | mk data =>
    cases data with
    | nil => rfl
    | cons c rest =>
      exfalso
      have hpos := Char.utf8Size_pos c
      simp [goLen, byteLenL] at h
      omega

/-- C5 (amended): extraction readiness holds exactly when the raw
record carries an explicit success status marker, or the recursive scan
bounded to 6 levels finds a string field whose lowercased key is one of
content/html/text/textcontent/readablecontent/excerpt/description/
markdown/article with trimmed length at least 200 bytes, or any string
of trimmed length at least 400 bytes, with fields keyed
notes/note/summary excluded (the hypothesis records that unmarshalling
an empty raw representation fails). -/
theorem hasExtractedContent_spec (raw : String) (parsed : Option JValue)
    (hcoh : raw = "" → parsed = none) :
    hasExtractedContent raw parsed = claimReadiness specContentKey raw parsed := by
  unfold hasExtractedContent claimReadiness
  by_cases h0 : goLen raw = 0
  · have hraw : raw = "" := goLen_eq_zero h0
    rw [hraw] at hcoh ⊢
    rw [hcoh rfl]
    decide
  · rw [if_neg h0]
    by_cases hm : (goContains raw "\"crawlStatus\":\"success\"" ||
        goContains raw "\"taggingStatus\":\"success\"") = true
    · rcases Bool.or_eq_true_iff.mp hm with hm1 | hm1 <;> simp [hm1]
    · have hm' := hm
      rw [Bool.or_eq_true] at hm'
      push_neg at hm'
      obtain ⟨h1, h2⟩ := hm'
      have hb1 : goContains raw "\"crawlStatus\":\"success\"" = false :=
        Bool.eq_false_iff.mpr h1
      have hb2 : goContains raw "\"taggingStatus\":\"success\"" = false :=
        Bool.eq_false_iff.mpr h2
      rw [if_neg hm]
      cases parsed with
      | none => simp [hb1, hb2]
      | some v => simp [hb1, hb2, findV_eq_spec v 0]


set_option maxRecDepth 4000 in
/-- C5: counterexample to the claim as stated.  A record whose only
field is `textContent` with a 250-character string is accepted by the
code's readiness scan, but the claim's key list
(content/html/text/excerpt/description/markdown/article) does not
include `textcontent`, so the claim's predicate rejects it. -/
theorem hasExtractedContent_claim_cex :
    hasExtractedContent "x"
        (some (.obj (.cons "textContent" (.str (String.mk (List.replicate 250 'a'))) .nil)))
      = true ∧
    claimReadiness claimContentKey "x"
        (some (.obj (.cons "textContent" (.str (String.mk (List.replicate 250 'a'))) .nil)))
      = false := by
  constructor <;> decide

theorem hasExtractedContent_spec_witness :
    hasExtractedContent "\"crawlStatus\":\"success\"" none
      = claimReadiness specContentKey "\"crawlStatus\":\"success\"" none :=
  hasExtractedContent_spec "\"crawlStatus\":\"success\"" none (fun h => by simp at h)


theorem normInterval_pos (interval : Int) : 0 < normInterval interval := by
  unfold normInterval
  split
  · decide
  · rename_i h
    omega

theorem normTimeout_pos (timeout : Int) : 0 < normTimeout timeout := by
  unfold normTimeout
  split
  · decide
  · rename_i h
    omega

theorem ecLoop_never_ready (fetch : Nat → Option Bookmark) (cancel : Nat → Bool)
    (i T : Nat) (hnr : ∀ m, ecReady fetch m = false)
    (hnc : ∀ m, cancel m = false) :
    ∀ fuel n, n * i ≤ T + i → T + 1 ≤ n * i + fuel * i →
    (ecLoop fetch cancel i T fuel n).1 = false ∧
      T < (ecLoop fetch cancel i T fuel n).2 ∧ (ecLoop fetch cancel i T fuel n).2 ≤ T + i := by
  intro fuel
  induction fuel with
  | zero =>
    intro n h1 h2
    simp only [Nat.zero_mul, Nat.add_zero] at h2
    exact ⟨rfl, by simpa [ecLoop] using Nat.lt_of_lt_of_le (Nat.lt_succ_self T) h2, by
      simpa [ecLoop] using h1⟩
  | succ f ih =>
    intro n h1 h2
    rw [ecLoop, hnr n]
    simp only [Bool.false_eq_true, if_false]
    by_cases hd : n * i > T
    · rw [if_pos hd]
      exact ⟨rfl, hd, h1⟩
    · rw [if_neg hd, hnc n]
      simp only [Bool.false_eq_true, if_false]
      apply ih (n + 1)
      · have hs : (n + 1) * i = n * i + i := Nat.succ_mul n i
        omega
      · have hs : (n + 1) * i = n * i + i := Nat.succ_mul n i
        have hs2 : (f + 1) * i = f * i + i := Nat.succ_mul f i
        omega

theorem ecLoop_success_sound (fetch : Nat → Option Bookmark) (cancel : Nat → Bool)
    (i T : Nat) :
    ∀ fuel n, (ecLoop fetch cancel i T fuel n).1 = true →
    ∃ m, ecReady fetch m = true := by
  intro fuel
  induction fuel with
  | zero => intro n h; simp [ecLoop] at h
  | succ f ih =>
    intro n h
    rw [ecLoop] at h
    by_cases hr : ecReady fetch n = true
    · exact ⟨n, hr⟩
    · rw [Bool.eq_false_iff.mpr hr] at h
      simp only [Bool.false_eq_true, if_false] at h
      by_cases hd : n * i > T
      · rw [if_pos hd] at h; simp at h
      · rw [if_neg hd] at h
        by_cases hc : cancel n = true
        · rw [hc] at h; simp at h
        · rw [Bool.eq_false_iff.mpr hc] at h
          simp only [Bool.false_eq_true, if_false] at h
          exact ih (n + 1) h

theorem ecLoop_success_complete (fetch : Nat → Option Bookmark) (cancel : Nat → Bool)
    (i T : Nat) (n0 : Nat) (hr : ecReady fetch n0 = true)
    (hmin : ∀ m, m < n0 → ecReady fetch m = false)
    (hd0 : n0 * i ≤ T) (hnc : ∀ m, m < n0 → cancel m = false) :
    ∀ fuel n, n ≤ n0 → n0 < n + fuel →
    ecLoop fetch cancel i T fuel n = (true, n0 * i) := by
  intro fuel
  induction fuel with
  | zero => intro n h1 h2; omega
  | succ f ih =>
    intro n h1 h2
    by_cases hn : n = n0
    · subst hn
      rw [ecLoop, hr]
      simp
    · have hlt : n < n0 := by omega
      rw [ecLoop, hmin n hlt]
      simp only [Bool.false_eq_true, if_false]
      have hdn : ¬(n * i > T) := by
        have : n * i ≤ n0 * i := Nat.mul_le_mul_right i (by omega)
        omega
      rw [if_neg hdn, hnc n hlt]
      simp only [Bool.false_eq_true, if_false]
      exact ih (n + 1) (by omega) (by omega)

theorem ecLoop_cancel_prompt (fetch : Nat → Option Bookmark) (cancel : Nat → Bool)
    (i T : Nat) (n0 : Nat) (hnr : ∀ m, ecReady fetch m = false)
    (hc : cancel n0 = true) (hd0 : n0 * i ≤ T) :
    ∀ fuel n, n ≤ n0 → n0 < n + fuel →
    (ecLoop fetch cancel i T fuel n).1 = false ∧
      (ecLoop fetch cancel i T fuel n).2 ≤ n0 * i := by
  intro fuel
  induction fuel with
  | zero => intro n h1 h2; omega
  | succ f ih =>
    intro n h1 h2
    rw [ecLoop, hnr n]
    simp only [Bool.false_eq_true, if_false]
    have hdn : ¬(n * i > T) := by
      have : n * i ≤ n0 * i := Nat.mul_le_mul_right i h1
      omega
    rw [if_neg hdn]
    by_cases hcn : cancel n = true
    · rw [if_pos hcn]
      exact ⟨rfl, Nat.mul_le_mul_right i h1⟩
    · rw [Bool.eq_false_iff.mpr hcn]
      simp only [Bool.false_eq_true, if_false]
      have hne : n ≠ n0 := fun h => hcn (h ▸ hc)
      exact ih (n + 1) (by omega) (by omega)

theorem nsLoop_never_ready (fetch : Nat → Option Bookmark) (cancel : Nat → Bool)
    (i T : Nat) (hnr : ∀ m, nsReady fetch m = false)
    (hnc : ∀ m, cancel m = false) :
    ∀ fuel n, n * i ≤ T + i → T + 1 ≤ n * i + fuel * i →
    (nsLoop fetch cancel i T fuel n).2.1 = false ∧
      T < (nsLoop fetch cancel i T fuel n).2.2 ∧
      (nsLoop fetch cancel i T fuel n).2.2 ≤ T + i := by
  intro fuel
  induction fuel with
  | zero =>
    intro n h1 h2
    simp only [Nat.zero_mul, Nat.add_zero] at h2
    exact ⟨rfl, by simpa [nsLoop] using Nat.lt_of_lt_of_le (Nat.lt_succ_self T) h2, by
      simpa [nsLoop] using h1⟩
  | succ f ih =>
    intro n h1 h2
    have hstep :
        nsLoop fetch cancel i T (f + 1) n =
          (if n * i > T then (zeroBookmark, false, n * i)
           else if cancel n then (zeroBookmark, false, n * i)
           else nsLoop fetch cancel i T f (n + 1)) := by
      rw [nsLoop]
      cases hf : fetch n with
      | some got =>
        have hsr : summaryReady got = false := by
          have h := hnr n
          simp only [nsReady, hf] at h
          exact h
        simp [hsr]
      | none => simp
    rw [hstep]
    by_cases hd : n * i > T
    · rw [if_pos hd]
      exact ⟨rfl, hd, h1⟩
    · rw [if_neg hd, hnc n]
      simp only [Bool.false_eq_true, if_false]
      apply ih (n + 1)
      · have hs : (n + 1) * i = n * i + i := Nat.succ_mul n i
        omega
      · have hs : (n + 1) * i = n * i + i := Nat.succ_mul n i
        have hs2 : (f + 1) * i = f * i + i := Nat.succ_mul f i
        omega

theorem nsLoop_success_sound (fetch : Nat → Option Bookmark) (cancel : Nat → Bool)
    (i T : Nat) :
    ∀ fuel n, (nsLoop fetch cancel i T fuel n).2.1 = true →
    summaryReady (nsLoop fetch cancel i T fuel n).1 = true ∧
      ∃ m, fetch m = some (nsLoop fetch cancel i T fuel n).1 := by
  intro fuel
  induction fuel with
  | zero => intro n h; simp [nsLoop] at h
  | succ f ih =>
    intro n h
    rw [nsLoop] at h ⊢
    cases hf : fetch n with
    | some got =>
      rw [hf] at h
      (try dsimp only at h)
      (try dsimp only)
      by_cases hs : summaryReady got = true
      · rw [if_pos hs]
        exact ⟨hs, n, hf⟩
      · rw [Bool.eq_false_iff.mpr hs] at h ⊢
        simp only [Bool.false_eq_true, if_false] at h ⊢
        by_cases hd : n * i > T
        · rw [if_pos hd] at h; simp at h
        · rw [if_neg hd] at h ⊢
          by_cases hc : cancel n = true
          · rw [if_pos hc] at h; simp at h
          · rw [if_neg hc] at h ⊢
            exact ih (n + 1) h
    | none =>
      rw [hf] at h
      (try dsimp only at h)
      (try dsimp only)
      by_cases hd : n * i > T
      · rw [if_pos hd] at h; simp at h
      · rw [if_neg hd] at h ⊢
        by_cases hc : cancel n = true
        · rw [if_pos hc] at h; simp at h
        · rw [if_neg hc] at h ⊢
          exact ih (n + 1) h

theorem nsLoop_success_complete (fetch : Nat → Option Bookmark) (cancel : Nat → Bool)
    (i T : Nat) (n0 : Nat) (b0 : Bookmark) (hf0 : fetch n0 = some b0)
    (hr : summaryReady b0 = true)
    (hmin : ∀ m, m < n0 → nsReady fetch m = false)
    (hd0 : n0 * i ≤ T) (hnc : ∀ m, m < n0 → cancel m = false) :
    ∀ fuel n, n ≤ n0 → n0 < n + fuel →
    nsLoop fetch cancel i T fuel n = (b0, true, n0 * i) := by
  intro fuel
  induction fuel with
  | zero => intro n h1 h2; omega
  | succ f ih =>
    intro n h1 h2
    by_cases hn : n = n0
    · subst hn
      rw [nsLoop, hf0]
      simp [hr]
    · have hlt : n < n0 := by omega
      have hdn : ¬(n * i > T) := by
        have : n * i ≤ n0 * i := Nat.mul_le_mul_right i (by omega)
        omega
      have hrec : nsLoop fetch cancel i T (f + 1) n = nsLoop fetch cancel i T f (n + 1) := by
        rw [nsLoop]
        cases hf : fetch n with
        | some got =>
          have hsr : summaryReady got = false := by
            have h := hmin n hlt
            simp only [nsReady, hf] at h
            exact h
          simp [hsr, hdn, hnc n hlt]
        | none => simp [hdn, hnc n hlt]
      rw [hrec]
      exact ih (n + 1) (by omega) (by omega)

theorem nsLoop_cancel_prompt (fetch : Nat → Option Bookmark) (cancel : Nat → Bool)
    (i T : Nat) (n0 : Nat) (hnr : ∀ m, nsReady fetch m = false)
    (hc : cancel n0 = true) (hd0 : n0 * i ≤ T) :
    ∀ fuel n, n ≤ n0 → n0 < n + fuel →
    (nsLoop fetch cancel i T fuel n).2.1 = false ∧
      (nsLoop fetch cancel i T fuel n).2.2 ≤ n0 * i := by
  intro fuel
  induction fuel with
  | zero => intro n h1 h2; omega
  | succ f ih =>
    intro n h1 h2
    have hdn : ¬(n * i > T) := by
      have : n * i ≤ n0 * i := Nat.mul_le_mul_right i h1
      omega
    have hstep :
        nsLoop fetch cancel i T (f + 1) n =
          (if cancel n then (zeroBookmark, false, n * i)
           else nsLoop fetch cancel i T f (n + 1)) := by
      rw [nsLoop]
      cases hf : fetch n with
      | some got =>
        have hsr : summaryReady got = false := by
          have h := hnr n
          simp only [nsReady, hf] at h
          exact h
        simp [hsr, hdn]
      | none => simp [hdn]
    rw [hstep]
    by_cases hcn : cancel n = true
    · rw [if_pos hcn]
      exact ⟨rfl, Nat.mul_le_mul_right i h1⟩
    · rw [if_neg hcn]
      have hne : n ≠ n0 := fun h => hcn (h ▸ hc)
      exact ih (n + 1) (by omega) (by omega)

theorem fuel_budget (i T : Nat) (hi : 0 < i) : T + 1 ≤ (T / i + 2) * i := by
  have h1 := Nat.div_add_mod T i
  have h2 := Nat.mod_lt T hi
  have h3 : (T / i + 2) * i = i * (T / i) + 2 * i := by ring
  rw [h3]
  generalize i * (T / i) = z at h1 ⊢
  omega

/-- C4: a Polling Waiter whose read never signals readiness terminates
with failure no earlier than the timeout and no later than timeout plus
one interval; a success result carries a last-read value satisfying the
readiness predicate, and first readiness before the deadline yields
success at that poll; a cancellation signalled before the deadline
(with readiness never holding) makes the waiter return non-readiness no
later than that poll.  Stated for both `waitForExtractedContent` and
`waitForNonEmptySummary`, in terms of the normalized interval/timeout
(defaults 3 s and 180 s). -/
theorem pollingWaiter_spec (fetch fetch2 : Nat → Option Bookmark)
    (cancel cancel2 : Nat → Bool) (interval timeout : Int) :
    ((∀ m, ecReady fetch m = false) → (∀ m, cancel m = false) →
      (waitForExtractedContent fetch cancel interval timeout).1 = false ∧
      normTimeout timeout < (waitForExtractedContent fetch cancel interval timeout).2 ∧
      (waitForExtractedContent fetch cancel interval timeout).2
        ≤ normTimeout timeout + normInterval interval) ∧
    ((waitForExtractedContent fetch cancel interval timeout).1 = true →
      ∃ m, ecReady fetch m = true) ∧
    (∀ n0, ecReady fetch n0 = true → (∀ m, m < n0 → ecReady fetch m = false) →
      n0 * normInterval interval ≤ normTimeout timeout →
      (∀ m, m < n0 → cancel m = false) →
      waitForExtractedContent fetch cancel interval timeout
        = (true, n0 * normInterval interval)) ∧
    (∀ n0, (∀ m, ecReady fetch m = false) → cancel n0 = true →
      n0 * normInterval interval ≤ normTimeout timeout →
      (waitForExtractedContent fetch cancel interval timeout).1 = false ∧
      (waitForExtractedContent fetch cancel interval timeout).2
        ≤ n0 * normInterval interval) ∧
    ((∀ m, nsReady fetch2 m = false) → (∀ m, cancel2 m = false) →
      (waitForNonEmptySummary fetch2 cancel2 interval timeout).2.1 = false ∧
      normTimeout timeout < (waitForNonEmptySummary fetch2 cancel2 interval timeout).2.2 ∧
      (waitForNonEmptySummary fetch2 cancel2 interval timeout).2.2
        ≤ normTimeout timeout + normInterval interval) ∧
    ((waitForNonEmptySummary fetch2 cancel2 interval timeout).2.1 = true →
      summaryReady (waitForNonEmptySummary fetch2 cancel2 interval timeout).1 = true ∧
      ∃ m, fetch2 m = some (waitForNonEmptySummary fetch2 cancel2 interval timeout).1) ∧
    (∀ n0 b0, fetch2 n0 = some b0 → summaryReady b0 = true →
      (∀ m, m < n0 → nsReady fetch2 m = false) →
      n0 * normInterval interval ≤ normTimeout timeout →
      (∀ m, m < n0 → cancel2 m = false) →
      waitForNonEmptySummary fetch2 cancel2 interval timeout
        = (b0, true, n0 * normInterval interval)) ∧
    (∀ n0, (∀ m, nsReady fetch2 m = false) → cancel2 n0 = true →
      n0 * normInterval interval ≤ normTimeout timeout →
      (waitForNonEmptySummary fetch2 cancel2 interval timeout).2.1 = false ∧
      (waitForNonEmptySummary fetch2 cancel2 interval timeout).2.2
        ≤ n0 * normInterval interval) := by
  have hi := normInterval_pos interval
  have hwec : waitForExtractedContent fetch cancel interval timeout
      = ecLoop fetch cancel (normInterval interval) (normTimeout timeout)
          (normTimeout timeout / normInterval interval + 2) 0 := rfl
  have hwns : waitForNonEmptySummary fetch2 cancel2 interval timeout
      = nsLoop fetch2 cancel2 (normInterval interval) (normTimeout timeout)
          (normTimeout timeout / normInterval interval + 2) 0 := rfl
  have hbudget : normTimeout timeout + 1 ≤ 0 * normInterval interval +
      (normTimeout timeout / normInterval interval + 2) * normInterval interval := by
    have := fuel_budget (normInterval interval) (normTimeout timeout) hi
    omega
  refine ⟨?_, ?_, ?_, ?_, ?_, ?_, ?_, ?_⟩
  · intro hnr hnc
    rw [hwec]
    exact ecLoop_never_ready fetch cancel _ _ hnr hnc _ 0 (by omega) hbudget
  · intro h
    rw [hwec] at h
    exact ecLoop_success_sound fetch cancel _ _ _ 0 h
  · intro n0 h1 h2 h3 h4
    rw [hwec]
    have hq : n0 ≤ normTimeout timeout / normInterval interval :=
      (Nat.le_div_iff_mul_le hi).mpr h3
    exact ecLoop_success_complete fetch cancel _ _ n0 h1 h2 h3 h4 _ 0
      (Nat.zero_le _) (by omega)
  · intro n0 h1 h2 h3
    rw [hwec]
    have hq : n0 ≤ normTimeout timeout / normInterval interval :=
      (Nat.le_div_iff_mul_le hi).mpr h3
    exact ecLoop_cancel_prompt fetch cancel _ _ n0 h1 h2 h3 _ 0
      (Nat.zero_le _) (by omega)
  · intro hnr hnc
    rw [hwns]
    exact nsLoop_never_ready fetch2 cancel2 _ _ hnr hnc _ 0 (by omega) hbudget
  · intro h
    rw [hwns] at h ⊢
    exact nsLoop_success_sound fetch2 cancel2 _ _ _ 0 h
  · intro n0 b0 h0 h1 h2 h3 h4
    rw [hwns]
    have hq : n0 ≤ normTimeout timeout / normInterval interval :=
      (Nat.le_div_iff_mul_le hi).mpr h3
    exact nsLoop_success_complete fetch2 cancel2 _ _ n0 b0 h0 h1 h2 h3 h4 _ 0
      (Nat.zero_le _) (by omega)
  · intro n0 h1 h2 h3
    rw [hwns]
    have hq : n0 ≤ normTimeout timeout / normInterval interval :=
      (Nat.le_div_iff_mul_le hi).mpr h3
    exact nsLoop_cancel_prompt fetch2 cancel2 _ _ n0 h1 h2 h3 _ 0
      (Nat.zero_le _) (by omega)

theorem mgLookup_remove_self (g : String) : ∀ st : MGState, mgLookup g (mgRemove g st) = none := by
  intro st
  induction st with
  | nil => rfl
  | cons e rest ih =>
    unfold mgRemove at ih ⊢
    rw [List.filter_cons]
    by_cases h : e.1 = g
    · rw [if_neg (by simp [h])]
      exact ih
    · rw [if_pos (by simp [h]), mgLookup, if_neg h]
      exact ih

theorem mgLookup_remove_other {g g' : String} (h : g ≠ g') :
    ∀ st : MGState, mgLookup g (mgRemove g' st) = mgLookup g st := by
  intro st
  induction st with
  | nil => rfl
  | cons e rest ih =>
    unfold mgRemove at ih ⊢
    rw [List.filter_cons]
    by_cases he : e.1 = g'
    · rw [if_neg (by simp [he])]
      rw [mgLookup, if_neg (by rw [he]; exact fun hh => h hh.symm)]
      exact ih
    · rw [if_pos (by simp [he]), mgLookup, mgLookup]
      by_cases he2 : e.1 = g
      · rw [if_pos he2, if_pos he2]
      · rw [if_neg he2, if_neg he2]
        exact ih

theorem mgLookup_append_none {g : String} :
    ∀ (st : MGState) (e : String × List Message × Int), mgLookup g st = none →
    mgLookup g (st ++ [e]) = mgLookup g [e] := by
  intro st
  induction st with
  | nil => intro e _; rfl
  | cons x rest ih =>
    intro e h
    rw [mgLookup] at h
    by_cases hx : x.1 = g
    · rw [if_pos hx] at h; exact absurd h (by simp)
    · rw [if_neg hx] at h
      rw [List.cons_append, mgLookup, if_neg hx]
      exact ih e h

theorem mgLookup_append_some {g : String} :
    ∀ (st : MGState) (e : String × List Message × Int) (v : List Message × Int),
    mgLookup g st = some v → mgLookup g (st ++ [e]) = some v := by
  intro st
  induction st with
  | nil => intro e v h; exact absurd h (by simp [mgLookup])
  | cons x rest ih =>
    intro e v h
    rw [mgLookup] at h
    rw [List.cons_append, mgLookup]
    by_cases hx : x.1 = g
    · rw [if_pos hx] at h ⊢; exact h
    · rw [if_neg hx] at h ⊢
      exact ih e v h

theorem mgLookup_map_update_self (key : String) (v : List Message × Int) :
    ∀ st : MGState,
    mgLookup key (st.map (fun e => if e.1 = key then (e.1, v) else e))
      = (mgLookup key st).map (fun _ => v) := by
  intro st
  induction st with
  | nil => rfl
  | cons x rest ih =>
    rw [List.map_cons]
    by_cases hx : x.1 = key
    · rw [if_pos hx]
      rw [mgLookup, mgLookup, if_pos hx, if_pos hx]
      rfl
    · rw [if_neg hx]
      rw [mgLookup, mgLookup, if_neg hx, if_neg hx]
      exact ih

theorem mgLookup_map_update_other {g key : String} (h : g ≠ key) (v : List Message × Int) :
    ∀ st : MGState,
    mgLookup g (st.map (fun e => if e.1 = key then (e.1, v) else e))
      = mgLookup g st := by
  intro st
  induction st with
  | nil => rfl
  | cons x rest ih =>
    rw [List.map_cons]
    by_cases hx : x.1 = key
    · rw [if_pos hx]
      have hg : ¬(x.1 = g) := by rw [hx]; exact fun hh => h hh.symm
      rw [mgLookup, mgLookup, if_neg hg, if_neg hg]
      exact ih
    · rw [if_neg hx]
      rw [mgLookup, mgLookup]
      by_cases hg : x.1 = g
      · rw [if_pos hg, if_pos hg]
      · rw [if_neg hg, if_neg hg]
        exact ih

theorem mgLookup_collect_self (delay : Int) (st : MGState) (m : Message) (t : Int)
    (h : m.mediaGroupID ≠ "") :
    mgLookup m.mediaGroupID (mgCollect delay st m t)
      = some (pendingFor m.mediaGroupID st ++ [m], t + delay) := by
  unfold mgCollect
  rw [if_neg h]
  cases hl : mgLookup m.mediaGroupID st with
  | some v =>
    cases v with
    | mk msgs d =>
      rw [mgLookup_map_update_self m.mediaGroupID (msgs ++ [m], t + delay) st, hl]
      simp [pendingFor, hl]
  | none =>
    rw [mgLookup_append_none st _ hl]
    rw [mgLookup, if_pos rfl]
    simp [pendingFor, hl]

theorem mgLookup_collect_other (delay : Int) (st : MGState) (m : Message) (t : Int)
    {g : String} (h : m.mediaGroupID ≠ g) :
    mgLookup g (mgCollect delay st m t) = mgLookup g st := by
  unfold mgCollect
  by_cases h0 : m.mediaGroupID = ""
  · rw [if_pos h0]
  · rw [if_neg h0]
    cases hl : mgLookup m.mediaGroupID st with
    | some v =>
      cases v with
      | mk msgs d =>
        exact mgLookup_map_update_other (fun hh => h hh.symm) (msgs ++ [m], t + delay) st
    | none =>
      cases hg : mgLookup g st with
      | some v => exact mgLookup_append_some st _ v hg
      | none =>
        rw [mgLookup_append_none st _ hg]
        rw [mgLookup, if_neg h]
        rfl

theorem mgRun_fire_live (delay : Int) (st : MGState) (g : String) (t : Int)
    (rest : List MGEvent) (msgs : List Message) (d : Int)
    (h : mgLookup g st = some (msgs, d)) (hne : msgs ≠ []) :
    mgRun delay st (.fire g t :: rest)
      = ((mgRun delay (mgRemove g st) rest).1,
         (g, msgs, t) :: (mgRun delay (mgRemove g st) rest).2) := by
  rw [mgRun]
  unfold mgFire
  rw [h]
  simp [hne]

theorem mgRun_fire_live_nil (delay : Int) (st : MGState) (g : String) (t : Int)
    (rest : List MGEvent) (d : Int) (h : mgLookup g st = some ([], d)) :
    mgRun delay st (.fire g t :: rest) = mgRun delay (mgRemove g st) rest := by
  rw [mgRun]
  unfold mgFire
  rw [h]
  simp

theorem mgRun_fire_dead (delay : Int) (st : MGState) (g : String) (t : Int)
    (rest : List MGEvent) (h : mgLookup g st = none) :
    mgRun delay st (.fire g t :: rest) = mgRun delay st rest := by
  rw [mgRun]
  unfold mgFire
  rw [h]

theorem flushedFor_cons (g g' : String) (msgs : List Message) (t : Int)
    (outs : List (String × List Message × Int)) :
    flushedFor g ((g', msgs, t) :: outs)
      = (if g' = g then msgs else []) ++ flushedFor g outs := by
  simp only [flushedFor, List.flatMap_cons]

theorem pendingFor_collect (delay : Int) (st : MGState) (m : Message) (t : Int)
    (g : String) :
    pendingFor g (mgCollect delay st m t)
      = pendingFor g st ++
          (if m.mediaGroupID = g ∧ m.mediaGroupID ≠ "" then [m] else []) := by
  by_cases h0 : m.mediaGroupID = ""
  · have hst : mgCollect delay st m t = st := by unfold mgCollect; rw [if_pos h0]
    rw [hst, if_neg (by simp [h0])]
    simp
  · by_cases hg : m.mediaGroupID = g
    · rw [if_pos ⟨hg, h0⟩]
      have hcs := mgLookup_collect_self delay st m t h0
      rw [hg] at hcs
      unfold pendingFor at hcs ⊢
      rw [hcs]
    · rw [if_neg (by simp [hg])]
      unfold pendingFor
      rw [mgLookup_collect_other delay st m t hg]
      simp

theorem mgRun_content (delay : Int) (g : String) :
    ∀ (evs : List MGEvent) (st : MGState),
    flushedFor g (mgRun delay st evs).2 ++ pendingFor g (mgRun delay st evs).1
      = pendingFor g st ++ collectedFor g evs := by
  intro evs
  induction evs with
  | nil => intro st; simp [mgRun, flushedFor, collectedFor]
  | cons e rest ih =>
    intro st
    cases e with
    | collect m t =>
      rw [show mgRun delay st (.collect m t :: rest)
          = mgRun delay (mgCollect delay st m t) rest from rfl]
      rw [ih (mgCollect delay st m t), pendingFor_collect, collectedFor]
      rw [List.append_assoc]
    | fire g' t =>
      cases hl : mgLookup g' st with
      | none =>
        rw [mgRun_fire_dead delay st g' t rest hl, ih st, collectedFor]
      | some v =>
        cases v with
        | mk msgs d =>
          by_cases hne : msgs = []
          · subst hne
            rw [mgRun_fire_live_nil delay st g' t rest d hl, ih _, collectedFor]
            congr 1
            by_cases hgg : g' = g
            · rw [hgg] at hl
              unfold pendingFor
              rw [hgg, mgLookup_remove_self, hl]
            · unfold pendingFor
              rw [mgLookup_remove_other (fun hh => hgg hh.symm)]
          · rw [mgRun_fire_live delay st g' t rest msgs d hl hne]
            simp only [flushedFor_cons]
            rw [List.append_assoc, ih _, collectedFor]
            by_cases hgg : g' = g
            · rw [if_pos hgg]
              rw [hgg] at hl
              have h1 : pendingFor g (mgRemove g' st) = [] := by
                unfold pendingFor
                rw [hgg, mgLookup_remove_self]
              have h2 : pendingFor g st = msgs := by
                unfold pendingFor
                rw [hl]
              rw [h1, h2]
              simp
            · rw [if_neg hgg]
              have h1 : pendingFor g (mgRemove g' st) = pendingFor g st := by
                unfold pendingFor
                rw [mgLookup_remove_other (fun hh => hgg hh.symm)]
              rw [h1]
              simp

theorem mgRun_deadline_inv (delay : Int) :
    ∀ (evs : List MGEvent) (st : MGState) (lc : String → Option Int),
    mgLookup "" st = none →
    (∀ g msgs d, mgLookup g st = some (msgs, d) → lc g = some (d - delay)) →
    mgLookup "" (mgRun delay st evs).1 = none ∧
    (∀ g msgs d, mgLookup g (mgRun delay st evs).1 = some (msgs, d) →
      (match lastCollectTime g evs with
       | some t => some t
       | none => lc g) = some (d - delay)) := by
  intro evs
  induction evs with
  | nil =>
    intro st lc hempty hinv
    refine ⟨hempty, ?_⟩
    intro g msgs d h
    rw [lastCollectTime]
    exact hinv g msgs d h
  | cons e rest ih =>
    intro st lc hempty hinv
    cases e with
    | collect m t =>
      rw [show mgRun delay st (.collect m t :: rest)
          = mgRun delay (mgCollect delay st m t) rest from rfl]
      by_cases h0 : m.mediaGroupID = ""
      · have hst : mgCollect delay st m t = st := by unfold mgCollect; rw [if_pos h0]
        rw [hst]
        obtain ⟨he, hc⟩ := ih st lc hempty hinv
        refine ⟨he, ?_⟩
        intro g msgs d h
        have := hc g msgs d h
        rw [lastCollectTime]
        cases hlc : lastCollectTime g rest with
        | some t2 => rw [hlc] at this; exact this
        | none =>
          rw [hlc] at this
          by_cases hgid : m.mediaGroupID = g
          · rw [← hgid, h0] at this
            rw [if_pos hgid]
            rcases hg2 : mgLookup g (mgRun delay st rest).1 with _ | v2
            · rw [hg2] at h; exact absurd h (by simp)
            · rw [← hgid] at hg2
              rw [h0] at hg2
              rw [(ih st lc hempty hinv).1] at hg2
              exact absurd hg2 (by simp)
          · rw [if_neg hgid]
            exact this
      · set lc2 : String → Option Int :=
          fun g' => if m.mediaGroupID = g' then some t else lc g' with hlc2
        have hempty2 : mgLookup "" (mgCollect delay st m t) = none := by
          rw [mgLookup_collect_other delay st m t h0]
          exact hempty
        have hinv2 : ∀ g msgs d, mgLookup g (mgCollect delay st m t) = some (msgs, d) →
            lc2 g = some (d - delay) := by
          intro g msgs d h
          by_cases hg : m.mediaGroupID = g
          · have hcs := mgLookup_collect_self delay st m t h0
            rw [hg] at hcs
            rw [hcs] at h
            have hd : d = t + delay := by
              have := (Option.some.injEq _ _).mp h
              exact (Prod.mk.injEq _ _ _ _).mp this |>.2.symm ▸ rfl
            rw [hlc2]
            simp only [hg, if_pos]
            rw [hd]
            congr 1
            omega
          · rw [mgLookup_collect_other delay st m t hg] at h
            rw [hlc2]
            simp only []
            rw [if_neg hg]
            exact hinv g msgs d h
        obtain ⟨he, hc⟩ := ih (mgCollect delay st m t) lc2 hempty2 hinv2
        refine ⟨he, ?_⟩
        intro g msgs d h
        have := hc g msgs d h
        rw [lastCollectTime]
        cases hlc : lastCollectTime g rest with
        | some t2 => rw [hlc] at this; exact this
        | none =>
          rw [hlc] at this
          (try dsimp only at this)
          (try dsimp only)
          by_cases hgid : m.mediaGroupID = g
          · simp only [hlc2] at this
            rw [if_pos hgid] at this
            rw [if_pos hgid]
            (try dsimp only)
            exact this
          · simp only [hlc2] at this
            rw [if_neg hgid] at this
            rw [if_neg hgid]
            (try dsimp only)
            exact this
    | fire g' t =>
      cases hl : mgLookup g' st with
      | none =>
        rw [mgRun_fire_dead delay st g' t rest hl]
        obtain ⟨he, hc⟩ := ih st lc hempty hinv
        refine ⟨he, ?_⟩
        intro g msgs d h
        rw [lastCollectTime]
        exact hc g msgs d h
      | some v =>
        cases v with
        | mk msgs0 d0 =>
          have hg'ne : g' ≠ "" := by
            intro hh
            rw [hh, hempty] at hl
            exact absurd hl (by simp)
          have hempty2 : mgLookup "" (mgRemove g' st) = none := by
            rw [mgLookup_remove_other (fun hh => hg'ne hh.symm)]
            exact hempty
          have hinv2 : ∀ g msgs d, mgLookup g (mgRemove g' st) = some (msgs, d) →
              lc g = some (d - delay) := by
            intro g msgs d h
            by_cases hg : g = g'
            · rw [hg, mgLookup_remove_self] at h
              exact absurd h (by simp)
            · rw [mgLookup_remove_other hg] at h
              exact hinv g msgs d h
          have hstep : (mgRun delay st (.fire g' t :: rest)).1
              = (mgRun delay (mgRemove g' st) rest).1 := by
            by_cases hne : msgs0 = []
            · subst hne
              rw [mgRun_fire_live_nil delay st g' t rest d0 hl]
            · rw [mgRun_fire_live delay st g' t rest msgs0 d0 hl hne]
          rw [hstep]
          obtain ⟨he, hc⟩ := ih (mgRemove g' st) lc hempty2 hinv2
          refine ⟨he, ?_⟩
          intro g msgs d h
          rw [lastCollectTime]
          exact hc g msgs d h

theorem mgRun_fire_fst (delay : Int) (st : MGState) (g2 : String) (t2 : Int)
    (rest : List MGEvent) :
    (mgRun delay st (.fire g2 t2 :: rest)).1 = (mgRun delay (mgFire st g2).1 rest).1 := by
  rw [mgRun]
  rcases hf : mgFire st g2 with ⟨st2, out⟩
  rcases out with _ | ⟨g3, msgs⟩
  · rfl
  · rfl

theorem mgFire_removes (st : MGState) (g : String) :
    mgLookup g (mgFire st g).1 = none := by
  unfold mgFire
  cases hf : mgLookup g st with
  | some v =>
    cases v with
    | mk msgs d => exact mgLookup_remove_self g st
  | none => exact hf

theorem mgValid_fire_guard (delay : Int) (g : String) (t : Int) (post : List MGEvent) :
    ∀ (pre : List MGEvent) (st : MGState) (tprev : Int),
    mgValid delay st tprev (pre ++ .fire g t :: post) →
    ∀ e, mgLookup g (mgRun delay st pre).1 = some e → e.2 = t := by
  intro pre
  induction pre with
  | nil =>
    intro st tprev hv e he
    obtain ⟨_, hg, _⟩ := hv
    exact hg e (by simpa [mgRun] using he)
  | cons ev rest ih =>
    intro st tprev hv e he
    cases ev with
    | collect m t2 =>
      obtain ⟨_, hrest⟩ := hv
      exact ih (mgCollect delay st m t2) t2 hrest e he
    | fire g2 t2 =>
      obtain ⟨_, _, hrest⟩ := hv
      apply ih (mgFire st g2).1 t2 hrest e
      rw [← mgRun_fire_fst]
      exact he

theorem mg_recreate_needs_collect (delay : Int) (g : String) :
    ∀ (mid : List MGEvent) (st : MGState),
    mgLookup g st = none →
    ∀ msgs d, mgLookup g (mgRun delay st mid).1 = some (msgs, d) →
    ∃ m t2, MGEvent.collect m t2 ∈ mid ∧ m.mediaGroupID = g := by
  intro mid
  induction mid with
  | nil =>
    intro st h msgs d he
    rw [show (mgRun delay st []).1 = st from rfl, h] at he
    exact absurd he (by simp)
  | cons ev rest ih =>
    intro st h msgs d he
    cases ev with
    | collect m t2 =>
      by_cases hg : m.mediaGroupID = g
      · exact ⟨m, t2, List.mem_cons_self _ _, hg⟩
      · have h2 : mgLookup g (mgCollect delay st m t2) = none := by
          rw [mgLookup_collect_other delay st m t2 hg]
          exact h
        obtain ⟨m2, t3, hm2, hg2⟩ := ih (mgCollect delay st m t2) h2 msgs d he
        exact ⟨m2, t3, List.mem_cons_of_mem _ hm2, hg2⟩
    | fire g2 t2 =>
      have h2 : mgLookup g (mgFire st g2).1 = none := by
        by_cases hgg : g = g2
        · rw [hgg]
          exact mgFire_removes st g2
        · unfold mgFire
          cases hf : mgLookup g2 st with
          | some v =>
            cases v with
            | mk msgs2 d2 =>
              rw [mgLookup_remove_other hgg]
              exact h
          | none => exact h
      obtain ⟨m2, t3, hm2, hg2⟩ := ih (mgFire st g2).1 h2 msgs d
        (by rw [← mgRun_fire_fst]; exact he)
      exact ⟨m2, t3, List.mem_cons_of_mem _ hm2, hg2⟩

/-- C3 (amended): over every valid trace of the Media-Group Collector,
(1) the flushes of a group concatenated with its still-pending units
equal exactly the units collected for it, in arrival order; (2) a flush
fires only at the current deadline, which always equals the last
arrival time plus the debounce delay; (3) the group's state is removed
from the live map at flush; (4) a group can be live again after being
absent only if an intervening Collect for that identifier occurred, so
the callback fires at most once per accumulation episode. -/
theorem mediaGroupCollector_spec (delay : Int) :
    (∀ (evs : List MGEvent) (st : MGState) (g : String),
      flushedFor g (mgRun delay st evs).2 ++ pendingFor g (mgRun delay st evs).1
        = pendingFor g st ++ collectedFor g evs) ∧
    (∀ (pre : List MGEvent) (g : String) (t : Int) (post : List MGEvent) (tprev : Int),
      mgValid delay [] tprev (pre ++ .fire g t :: post) →
      ∀ msgs d, mgLookup g (mgRun delay [] pre).1 = some (msgs, d) →
        d = t ∧ lastCollectTime g pre = some (t - delay)) ∧
    (∀ (st : MGState) (g : String), mgLookup g (mgFire st g).1 = none) ∧
    (∀ (mid : List MGEvent) (st : MGState) (g : String),
      mgLookup g st = none →
      ∀ msgs d, mgLookup g (mgRun delay st mid).1 = some (msgs, d) →
      ∃ m t2, MGEvent.collect m t2 ∈ mid ∧ m.mediaGroupID = g) := by
  refine ⟨fun evs st g => mgRun_content delay g evs st, ?_,
    fun st g => mgFire_removes st g,
    fun mid st g => mg_recreate_needs_collect delay g mid st⟩
  intro pre g t post tprev hv msgs d h
  have hd : d = t := mgValid_fire_guard delay g t post pre [] tprev hv (msgs, d) h
  refine ⟨hd, ?_⟩
  have hinv := (mgRun_deadline_inv delay pre [] (fun _ => none) rfl
    (by intro g2 m2 d2 hh; exact absurd hh (by simp [mgLookup]))).2 g msgs d h
  cases hlc : lastCollectTime g pre with
  | none =>
    rw [hlc] at hinv
    exact absurd hinv (by simp)
  | some t2 =>
    rw [hlc] at hinv
    have : t2 = d - delay := by
      injection hinv
    rw [this, hd]

/-- C3: counterexample to "the flush callback fires at most once per
group identifier": a valid trace in which two Collect calls for the
same identifier are separated by more than the debounce delay produces
two flushes for that identifier. -/
theorem mediaGroupCollector_at_most_once_cex :
    mgValid 2 [] 0
        [MGEvent.collect { blankMessage with mediaGroupID := "g" } 0,
         MGEvent.fire "g" 2,
         MGEvent.collect { blankMessage with mediaGroupID := "g" } 5,
         MGEvent.fire "g" 7] ∧
    ((mgRun 2 []
        [MGEvent.collect { blankMessage with mediaGroupID := "g" } 0,
         MGEvent.fire "g" 2,
         MGEvent.collect { blankMessage with mediaGroupID := "g" } 5,
         MGEvent.fire "g" 7]).2.map (fun o => o.1)) = ["g", "g"] := by
  constructor
  · refine ⟨by norm_num, by norm_num, ?_, by norm_num, by norm_num, ?_, trivial⟩
    · intro e he
      simp [mgCollect, mgLookup, blankMessage] at he
      subst he
      rfl
    · intro e he
      simp [mgCollect, mgFire, mgRemove, mgLookup, blankMessage] at he
      subst he
      rfl
  · rfl

theorem classifyMessage_table_witness :
    classifyMessage
        (some { blankMessage with
                text := "https://example.com"
                entities := [⟨"url", 0, 19, ""⟩] })
      = ⟨KindBookmark, "https://example.com", "", "", [], false⟩ := by
  have h := classifyMessage_table
    { blankMessage with
      text := "https://example.com"
      entities := [⟨"url", 0, 19, ""⟩] }
    _ _ _ rfl rfl rfl
  exact (h.2.2.2.1 (by decide) "https://example.com" (by decide)).1 (by decide)

theorem pollingWaiter_spec_witness :
    (waitForExtractedContent (fun _ => none) (fun _ => false) 3 10).1 = false ∧
    normTimeout 10 < (waitForExtractedContent (fun _ => none) (fun _ => false) 3 10).2 ∧
    (waitForExtractedContent (fun _ => none) (fun _ => false) 3 10).2
      ≤ normTimeout 10 + normInterval 3 :=
  (pollingWaiter_spec (fun _ => none) (fun _ => none) (fun _ => false) (fun _ => false)
    3 10).1 (fun _ => rfl) (fun _ => rfl)

theorem submitCreate_retry_witness :
    (submitCreate (fun _ => ⟨zeroBookmark, 500, some "err"⟩)
        ⟨KindNote, "", "", "note text", ["https://example.com"], false⟩ "d").1
      = [⟨"", "", "note text"⟩, ⟨"https://example.com", "", "note text"⟩] :=
  (submitCreate_retry (fun _ => ⟨zeroBookmark, 500, some "err"⟩)
    ⟨KindNote, "", "", "note text", ["https://example.com"], false⟩ "d").2.2.1
    rfl "https://example.com" [] rfl (by decide)

theorem userFacingKarakeepError_spec_witness :
    (userFacingKarakeepError 500 (some (String.mk (List.replicate 900 'x')))).length
      ≤ 800 :=
  (userFacingKarakeepError_spec 500 (some (String.mk (List.replicate 900 'x')))
    (by decide)).2.2.2.2

theorem mediaGroupCollector_spec_witness :
    (2 : Int) = 2 ∧
    lastCollectTime "g" [MGEvent.collect { blankMessage with mediaGroupID := "g" } 0]
      = some (2 - 2) :=
  (mediaGroupCollector_spec 2).2.1
    [MGEvent.collect { blankMessage with mediaGroupID := "g" } 0] "g" 2 [] 0
    (by
      refine ⟨by norm_num, by norm_num, ?_, trivial⟩
      intro e he
      simp [mgCollect, mgLookup, blankMessage] at he
      subst he
      rfl)
    [{ blankMessage with mediaGroupID := "g" }] 2 (by decide)

end KBot
